import Mathlib

/-!
# Git-Backup-Enc: verification of the encrypted-tree transform

A shallow embedding of the core of the Git-Backup-Enc repository
(`backup.py`, `restore.py`): PBKDF2 key derivation, AES-256-CBC data
encryption with PKCS#7 padding, base64url filename encryption, the
backup tree transform, and the restore loop.

The AES block permutation and the PBKDF2-HMAC-SHA256 primitive are
library calls in the source (`cryptography.hazmat`), so they are
modelled abstractly: the block cipher as a `BlockCipher` structure (an
arbitrary length-preserving keyed permutation on 16-byte blocks), the
KDF as a function parameter.  Everything the repository itself
implements — CBC chaining, IV handling, PKCS#7 padding and unpadding,
base64url encoding with `=`-stripping, UTF-8 filename handling, the
backup and restore loops — is embedded concretely.

Bytes are `Nat` values together with a `< 256` validity predicate.
-/

namespace GitBackupEnc

/-- A byte string, each element intended to be `< 256`. -/
abbrev Bytes := List Nat

/-- All elements of the byte string are genuine bytes. -/
def ValidBytes (l : Bytes) : Prop := ∀ x ∈ l, x < 256

instance : DecidablePred ValidBytes := fun l =>
  inferInstanceAs (Decidable (∀ x ∈ l, x < 256))

/-- Abstract model of the AES-256 block permutation used through
`cryptography.hazmat.primitives.ciphers.algorithms.AES`: a keyed
invertible map on 16-byte blocks. -/
structure BlockCipher where
  enc : Bytes → Bytes → Bytes
  dec : Bytes → Bytes → Bytes
  enc_length : ∀ k b, b.length = 16 → (enc k b).length = 16
  enc_valid : ∀ k b, ValidBytes b → ValidBytes (enc k b)
  dec_enc : ∀ k b, b.length = 16 → ValidBytes b → dec k (enc k b) = b

/-- Bytewise XOR, as used by CBC chaining. -/
def xorBytes (a b : Bytes) : Bytes := List.zipWith (fun x y => x ^^^ y) a b

/-- Fuel-indexed block splitter (structural recursion, so that the
kernel can evaluate it on concrete inputs). -/
def chunks16Go : Nat → Bytes → List Bytes
  | _, [] => []
  | 0, x :: xs => [x :: xs]
  | fuel + 1, x :: xs =>
    ((x :: xs).take 16) :: chunks16Go fuel ((x :: xs).drop 16)

/-- Split a byte string into consecutive 16-byte blocks (the last block
may be shorter when the length is not a multiple of 16). -/
def chunks16 (l : Bytes) : List Bytes := chunks16Go l.length l

/-- PKCS#7 padding to the 128-bit block size, as performed by
`padder.update(data) + padder.finalize()` in `encrypt_data`. -/
def pkcs7Pad (data : Bytes) : Bytes :=
  data ++ List.replicate (16 - data.length % 16) (16 - data.length % 16)

/-- PKCS#7 unpadding, as performed by
`unpadder.update(padded_data) + unpadder.finalize()` in `decrypt_data`:
the last byte names the padding length, which must be between 1 and 16
and match every padding byte; otherwise the library raises
`ValueError` (invalid padding). -/
def pkcs7Unpad (l : Bytes) : Option Bytes :=
  match l.getLast? with
  | none => none
  | some n =>
    if 1 ≤ n ∧ n ≤ 16 ∧ n ≤ l.length ∧ ∀ x ∈ l.drop (l.length - n), x = n then
      some (l.take (l.length - n))
    else none

/-- CBC encryption over a list of plaintext blocks, given the previous
ciphertext block (initially the IV). -/
def cbcEncBlocks (C : BlockCipher) (key : Bytes) (prev : Bytes) :
    List Bytes → List Bytes
  | [] => []
  | b :: bs =>
    let c := C.enc key (xorBytes b prev)
    c :: cbcEncBlocks C key c bs

/-- CBC decryption over a list of ciphertext blocks, given the previous
ciphertext block (initially the IV). -/
def cbcDecBlocks (C : BlockCipher) (key : Bytes) (prev : Bytes) :
    List Bytes → List Bytes
  | [] => []
  | c :: cs => xorBytes (C.dec key c) prev :: cbcDecBlocks C key c cs

/-- `BackupEncryptor.encrypt_data` (`backup.py` lines 43-58): pad the
plaintext with PKCS#7, encrypt under CBC with a fresh 16-byte IV, and
return IV + ciphertext.  The IV, drawn from `os.urandom(16)` in the
source, is passed explicitly here. -/
def encrypt_data (C : BlockCipher) (key iv data : Bytes) : Bytes :=
  iv ++ (cbcEncBlocks C key iv (chunks16 (pkcs7Pad data))).flatten

/-- The failure modes of `decrypt_data`: a blob whose shape is wrong
(the library rejects a short IV or a ciphertext that is not a multiple
of the block size) versus invalid PKCS#7 padding after decryption. -/
inductive DecryptError where
  | malformedBlob : DecryptError
  | paddingError : DecryptError
deriving DecidableEq, Repr

instance {e a : Type} [DecidableEq e] [DecidableEq a] :
    DecidableEq (Except e a) := fun x y =>
  match x, y with
  | .ok u, .ok v =>
    if h : u = v then isTrue (by rw [h])
    else isFalse (fun hc => h (Except.ok.inj hc))
  | .ok _, .error _ => isFalse (fun hc => Except.noConfusion hc)
  | .error _, .ok _ => isFalse (fun hc => Except.noConfusion hc)
  | .error u, .error v =>
    if h : u = v then isTrue (by rw [h])
    else isFalse (fun hc => h (Except.error.inj hc))

/-- `BackupDecryptor.decrypt_data` (`restore.py` lines 40-55): split off
the 16-byte IV, CBC-decrypt the remainder, and strip PKCS#7 padding.
A blob shorter than 16 bytes makes `modes.CBC(iv)` reject the IV, and a
remainder that is not a multiple of 16 makes the CBC decryptor's
`finalize` fail: both are `malformedBlob`.  Invalid padding after
decryption is `paddingError`. -/
def decrypt_data (C : BlockCipher) (key blob : Bytes) :
    Except DecryptError Bytes :=
  if blob.length < 16 then .error .malformedBlob
  else
    let iv := blob.take 16
    let ct := blob.drop 16
    if ct.length % 16 ≠ 0 then .error .malformedBlob
    else
      match pkcs7Unpad (cbcDecBlocks C key iv (chunks16 ct)).flatten with
      | none => .error .paddingError
      | some d => .ok d

/-- UTF-8 encoding of a single Unicode scalar value. -/
def utf8EncodeChar (c : Nat) : Bytes :=
  if c < 0x80 then [c]
  else if c < 0x800 then [0xC0 + c / 64, 0x80 + c % 64]
  else if c < 0x10000 then
    [0xE0 + c / 4096, 0x80 + c / 64 % 64, 0x80 + c % 64]
  else
    [0xF0 + c / 262144, 0x80 + c / 4096 % 64, 0x80 + c / 64 % 64,
      0x80 + c % 64]

/-- UTF-8 encoding of a character sequence. -/
def utf8EncodeChars (cs : List Char) : Bytes :=
  (cs.map (fun ch => utf8EncodeChar ch.toNat)).flatten

/-- `str.encode('utf-8')` on a Python string. -/
def utf8Encode (s : String) : Bytes := utf8EncodeChars s.data

/-- Fuel-indexed strict UTF-8 decoder (structural recursion, so that
the kernel can evaluate it on concrete inputs). -/
def utf8DecodeGo : Nat → Bytes → Option (List Nat)
  | _, [] => some []
  | 0, _ :: _ => none
  | fuel + 1, b :: rest =>
    if b < 0x80 then (utf8DecodeGo fuel rest).map (fun t => b :: t)
    else if b < 0xE0 then
      if 0xC2 ≤ b ∧ 1 ≤ rest.length ∧ 0x80 ≤ rest.getD 0 0 ∧
          rest.getD 0 0 < 0xC0 then
        (utf8DecodeGo fuel (rest.drop 1)).map
          (fun t => ((b - 0xC0) * 64 + (rest.getD 0 0 - 0x80)) :: t)
      else none
    else if b < 0xF0 then
      if 2 ≤ rest.length ∧ 0x80 ≤ rest.getD 0 0 ∧ rest.getD 0 0 < 0xC0 ∧
          0x80 ≤ rest.getD 1 0 ∧ rest.getD 1 0 < 0xC0 ∧
          0x800 ≤ (b - 0xE0) * 4096 + (rest.getD 0 0 - 0x80) * 64 +
            (rest.getD 1 0 - 0x80) ∧
          ((b - 0xE0) * 4096 + (rest.getD 0 0 - 0x80) * 64 +
              (rest.getD 1 0 - 0x80) < 0xD800 ∨
            0xDFFF < (b - 0xE0) * 4096 + (rest.getD 0 0 - 0x80) * 64 +
              (rest.getD 1 0 - 0x80)) then
        (utf8DecodeGo fuel (rest.drop 2)).map
          (fun t => ((b - 0xE0) * 4096 + (rest.getD 0 0 - 0x80) * 64 +
            (rest.getD 1 0 - 0x80)) :: t)
      else none
    else if b < 0xF5 then
      if 3 ≤ rest.length ∧ 0x80 ≤ rest.getD 0 0 ∧ rest.getD 0 0 < 0xC0 ∧
          0x80 ≤ rest.getD 1 0 ∧ rest.getD 1 0 < 0xC0 ∧
          0x80 ≤ rest.getD 2 0 ∧ rest.getD 2 0 < 0xC0 ∧
          0x10000 ≤ (b - 0xF0) * 262144 + (rest.getD 0 0 - 0x80) * 4096 +
            (rest.getD 1 0 - 0x80) * 64 + (rest.getD 2 0 - 0x80) ∧
          (b - 0xF0) * 262144 + (rest.getD 0 0 - 0x80) * 4096 +
            (rest.getD 1 0 - 0x80) * 64 + (rest.getD 2 0 - 0x80) < 0x110000 then
        (utf8DecodeGo fuel (rest.drop 3)).map
          (fun t => ((b - 0xF0) * 262144 + (rest.getD 0 0 - 0x80) * 4096 +
            (rest.getD 1 0 - 0x80) * 64 + (rest.getD 2 0 - 0x80)) :: t)
      else none
    else none

/-- Strict UTF-8 decoding to a list of Unicode scalar values, following
Python's `bytes.decode('utf-8')`: continuation bytes must be in
`[0x80, 0xC0)`, overlong encodings, surrogates and values above
`0x10FFFF` are rejected. -/
def utf8Decode (l : Bytes) : Option (List Nat) := utf8DecodeGo l.length l

/-- The fixed salt `b'Git-Backup-Enc-Salt-v1'` shared by `backup.py`
line 32 and `restore.py` line 29. -/
def kdfSalt : Bytes := utf8Encode "Git-Backup-Enc-Salt-v1"

/-- The fixed PBKDF2 iteration count used in both constructors. -/
def kdfIterations : Nat := 100000

/-- The fixed derived-key length (AES-256 key size) used in both
constructors. -/
def kdfKeyLength : Nat := 32

/-- The key computed by `BackupEncryptor.__init__` (`backup.py` lines
26-41).  The PBKDF2-HMAC-SHA256 primitive itself is the `cryptography`
library's; it is modelled as the function argument
`pbkdf2 passwordBytes salt iterations length`. -/
def backupEncryptorKey (pbkdf2 : Bytes → Bytes → Nat → Nat → Bytes)
    (password : String) : Bytes :=
  pbkdf2 (utf8Encode password) kdfSalt kdfIterations kdfKeyLength

/-- The key computed by `BackupDecryptor.__init__` (`restore.py` lines
25-38), with the same salt, iteration count and output length. -/
def backupDecryptorKey (pbkdf2 : Bytes → Bytes → Nat → Nat → Bytes)
    (password : String) : Bytes :=
  pbkdf2 (utf8Encode password) kdfSalt kdfIterations kdfKeyLength

/-! ## URL-safe base64 (`base64.urlsafe_b64encode` /
`base64.urlsafe_b64decode`) -/

/-- The URL-safe base64 alphabet: `A-Z`, `a-z`, `0-9`, `-`, `_`. -/
def sixBitChar (n : Nat) : Char :=
  if n < 26 then Char.ofNat (65 + n)
  else if n < 52 then Char.ofNat (97 + (n - 26))
  else if n < 62 then Char.ofNat (48 + (n - 52))
  else if n = 62 then Char.ofNat 45
  else Char.ofNat 95

/-- Inverse of the URL-safe base64 alphabet. -/
def charSixBit (c : Char) : Option Nat :=
  if 65 ≤ c.toNat ∧ c.toNat ≤ 90 then some (c.toNat - 65)
  else if 97 ≤ c.toNat ∧ c.toNat ≤ 122 then some (c.toNat - 97 + 26)
  else if 48 ≤ c.toNat ∧ c.toNat ≤ 57 then some (c.toNat - 48 + 52)
  else if c.toNat = 45 then some 62
  else if c.toNat = 95 then some 63
  else none

/-- `base64.urlsafe_b64encode`: bytes to base64 characters, with `=`
padding. -/
def b64EncodeBytes : Bytes → List Char
  | [] => []
  | [a] =>
    [sixBitChar (a / 4), sixBitChar (a % 4 * 16), '=', '=']
  | [a, b] =>
    [sixBitChar (a / 4), sixBitChar (a % 4 * 16 + b / 16),
      sixBitChar (b % 16 * 4), '=']
  | a :: b :: c :: rest =>
    sixBitChar (a / 4) :: sixBitChar (a % 4 * 16 + b / 16) ::
      sixBitChar (b % 16 * 4 + c / 64) :: sixBitChar (c % 64) ::
      b64EncodeBytes rest

/-- `base64.urlsafe_b64decode` on canonically padded input: groups of
four characters decode to three bytes, with `=` padding ending the
input. -/
def b64DecodeBytes : List Char → Option Bytes
  | [] => some []
  | w :: x :: y :: z :: rest =>
    match charSixBit w, charSixBit x with
    | some a, some b =>
      if y = '=' then
        if z = '=' ∧ rest = [] then some [a * 4 + b / 16] else none
      else
        match charSixBit y with
        | some c =>
          if z = '=' then
            if rest = [] then some [a * 4 + b / 16, b % 16 * 16 + c / 4]
            else none
          else
            match charSixBit z with
            | some d =>
              (b64DecodeBytes rest).map
                (fun t => (a * 4 + b / 16) :: (b % 16 * 16 + c / 4) ::
                  ((c % 4 * 64 + d) :: t))
            | none => none
        | none => none
    | _, _ => none
  | _ => none

/-- `.rstrip('=')` in `encrypt_filename`. -/
def stripEq (s : List Char) : List Char :=
  (s.reverse.dropWhile (fun c => c == '=')).reverse

/-- The `'=' * ((4 - len % 4) % 4)` re-padding in `decrypt_filename`. -/
def repadEq (s : List Char) : List Char :=
  s ++ List.replicate ((4 - s.length % 4) % 4) '='

/-- `BackupEncryptor.encrypt_filename` (`backup.py` lines 60-64):
UTF-8-encode the name, encrypt it as data, base64url-encode and strip
trailing `=`. -/
def encrypt_filename (C : BlockCipher) (key iv : Bytes)
    (filename : String) : String :=
  String.mk (stripEq (b64EncodeBytes
    (encrypt_data C key iv (utf8Encode filename))))

/-- `BackupDecryptor.decrypt_filename` (`restore.py` lines 57-68):
restore the `=` padding from the string length, base64url-decode,
decrypt, UTF-8-decode. -/
def decrypt_filename (C : BlockCipher) (key : Bytes)
    (encrypted_filename : String) : Option String :=
  match b64DecodeBytes (repadEq encrypted_filename.data) with
  | none => none
  | some blob =>
    match decrypt_data C key blob with
    | .error _ => none
    | .ok d =>
      match utf8Decode d with
      | none => none
      | some codes => some (String.mk (codes.map Char.ofNat))

/-- A directory tree as a flat list of (component path, content). -/
abbrev Mirror := List (List String × Bytes)

/-- Reading the file at a path, if present. -/
def lookupFile (m : Mirror) (p : List String) : Option Bytes :=
  match m.find? (fun e => decide (e.1 = p)) with
  | none => none
  | some e => some e.2

/-- Writing a file at a path, replacing any existing file there. -/
def setFile (m : Mirror) (p : List String) (b : Bytes) : Mirror :=
  m.filter (fun e => decide (e.1 ≠ p)) ++ [(p, b)]

/-- The IV stream: call number `n` of `os.urandom(16)` yields the
16-byte IV whose bytes are `entropy n 0 % 256, …, entropy n 15 % 256`. -/
def ivOf (entropy : Nat → Nat → Nat) (n : Nat) : Bytes :=
  (List.range 16).map (fun i => entropy n i % 256)

/-! ## The backup transform (`backup.py` `backup`, lines 209-299) -/

/-- `[encryptor.encrypt_filename(part) for part in parts]` (`backup.py`
line 266), threading the IV-stream counter: each component consumes one
fresh IV.  Returns the encrypted components and the next counter. -/
def encryptParts (C : BlockCipher) (key : Bytes)
    (entropy : Nat → Nat → Nat) : Nat → List String → List String × Nat
  | n, [] => ([], n)
  | n, p :: ps =>
    let e := encrypt_filename C key (ivOf entropy n) p
    let r := encryptParts C key entropy (n + 1) ps
    (e :: r.1, r.2)

/-- The per-file loop of `backup` (`backup.py` lines 260-281): encrypt
each relative path component-wise, encrypt the content
(`encrypt_file`), write it into the mirror, and record the mapping
entry.  Returns the new mirror, the mapping (as component lists; the
source joins the components with the path separator), and the next IV
counter. -/
def backupFiles (C : BlockCipher) (key : Bytes)
    (entropy : Nat → Nat → Nat) :
    Nat → List (List String × Bytes) → Mirror →
      Mirror × List (List String × List String) × Nat
  | n, [], m => (m, [], n)
  | n, (rel, content) :: fs, m =>
    let er := encryptParts C key entropy n rel
    let blob := encrypt_data C key (ivOf entropy er.2) content
    let r := backupFiles C key entropy (er.2 + 1) fs (setFile m er.1 blob)
    (r.1, (er.1, rel) :: r.2.1, r.2.2)

/-- The fixed location of the mapping artifact, `backup_path /
'mapping.enc'`. -/
def mappingPath : List String := ["mapping.enc"]

/-- The version-control directory spared by the clearing loop. -/
def gitDirName : String := ".git"

/-- The clearing loop of `backup` (`backup.py` lines 247-254): every
entry of the backup directory other than `.git` is removed
(`shutil.rmtree` / `unlink`). -/
def clearBackupDir (m : Mirror) : Mirror :=
  m.filter (fun e => decide (e.1.head? = some gitDirName))

/-- `backup` (`backup.py` lines 209-299), with the out-of-scope
collaborators passed as parameters: `C` the AES block cipher, `pbkdf2`
the KDF primitive, `entropy` the `os.urandom` stream, `serialize` the
`json.dumps(mapping).encode('utf-8')` serializer, `files` the selected
(relative path, content) list produced by the file-list reader.  If no
files match, `backup` returns before touching the mirror (lines
232-234).  Otherwise it clears the mirror except `.git`, encrypts every
file, and writes the encrypted mapping to `mapping.enc`.  Returns the
resulting mirror and the mapping. -/
def backup (C : BlockCipher) (pbkdf2 : Bytes → Bytes → Nat → Nat → Bytes)
    (entropy : Nat → Nat → Nat)
    (serialize : List (List String × List String) → Bytes)
    (password : String) (files : List (List String × Bytes))
    (mirror : Mirror) : Mirror × List (List String × List String) :=
  if files = [] then (mirror, [])
  else
    let key := backupEncryptorKey pbkdf2 password
    let r := backupFiles C key entropy 0 files (clearBackupDir mirror)
    (setFile r.1 mappingPath
      (encrypt_data C key (ivOf entropy r.2.2) (serialize r.2.1)), r.2.1)

/-! ## The restore transform (`restore.py` `restore`, lines 149-222) -/

/-- The failure modes of `restore` before its per-file loop. -/
inductive RestoreError where
  | mappingNotFound : RestoreError
  | decryptFailed : DecryptError → RestoreError
  | formatError : RestoreError
deriving DecidableEq, Repr

/-- The per-entry loop of `restore` (`restore.py` lines 203-215): a
missing encrypted file is skipped with a warning; a decryption error
raises and aborts the loop (keeping earlier writes); otherwise the
decrypted content is written under the restore root and the counter is
incremented.  Returns the files written, the restored count, and the
error that aborted the loop, if any. -/
def restoreLoop (C : BlockCipher) (key : Bytes) (mirror : Mirror) :
    List (List String × List String) →
      List (List String × Bytes) × Nat × Option DecryptError
  | [] => ([], 0, none)
  | (encP, origP) :: rest =>
    match lookupFile mirror encP with
    | none => restoreLoop C key mirror rest
    | some blob =>
      match decrypt_data C key blob with
      | .error e => ([], 0, some e)
      | .ok d =>
        let r := restoreLoop C key mirror rest
        ((origP, d) :: r.1, r.2.1 + 1, r.2.2)

/-- `restore` (`restore.py` lines 149-222): read `mapping.enc` from the
mirror (exit if absent), decrypt it (a decryption error propagates
before any file is written), parse it (`json.loads`, modelled by the
`parse` parameter, which also covers the UTF-8 decode), then run the
per-entry loop.  Returns the files written under the restore root and
either the restored count or the error that stopped the run. -/
def restore (C : BlockCipher) (pbkdf2 : Bytes → Bytes → Nat → Nat → Bytes)
    (parse : Bytes → Option (List (List String × List String)))
    (password : String) (mirror : Mirror) :
    List (List String × Bytes) × Except RestoreError Nat :=
  let key := backupDecryptorKey pbkdf2 password
  match lookupFile mirror mappingPath with
  | none => ([], .error .mappingNotFound)
  | some mblob =>
    match decrypt_data C key mblob with
    | .error e => ([], .error (.decryptFailed e))
    | .ok mbytes =>
      match parse mbytes with
      | none => ([], .error .formatError)
      | some entries =>
        let r := restoreLoop C key mirror entries
        match r.2.2 with
        | some e => (r.1, .error (.decryptFailed e))
        | none => (r.1, .ok r.2.1)

/-! ## Derived descriptions of the backup loop, used to state its
specification -/

/-- The encrypted relative paths produced by the backup loop, file by
file, as a function of the starting IV counter: file `i` consumes one
IV per path component plus one for its content. -/
def encRels (C : BlockCipher) (key : Bytes) (entropy : Nat → Nat → Nat) :
    Nat → List (List String × Bytes) → List (List String)
  | _, [] => []
  | n, (rel, _) :: fs =>
    (encryptParts C key entropy n rel).1 ::
      encRels C key entropy (n + rel.length + 1) fs

/-- The sequence of files the backup loop writes into the mirror. -/
def mirrorWrites (C : BlockCipher) (key : Bytes)
    (entropy : Nat → Nat → Nat) :
    Nat → List (List String × Bytes) → Mirror
  | _, [] => []
  | n, (rel, content) :: fs =>
    ((encryptParts C key entropy n rel).1,
      encrypt_data C key (ivOf entropy ((encryptParts C key entropy n rel).2))
        content) :: mirrorWrites C key entropy (n + rel.length + 1) fs

/-- The number of IVs one backup run's file loop consumes. -/
def backupWeight : List (List String × Bytes) → Nat
  | [] => 0
  | (rel, _) :: fs => rel.length + 1 + backupWeight fs

/-- The encrypted mapping artifact a backup run leaves at
`mapping.enc`. -/
def backupMappingBlob (C : BlockCipher)
    (pbkdf2 : Bytes → Bytes → Nat → Nat → Bytes)
    (entropy : Nat → Nat → Nat)
    (serialize : List (List String × List String) → Bytes)
    (password : String) (files : List (List String × Bytes))
    (mirror : Mirror) : Bytes :=
  match lookupFile (backup C pbkdf2 entropy serialize password files
    mirror).1 mappingPath with
  | some b => b
  | none => []

/-- A concrete block cipher instance: bytewise addition of the first
key byte, modulo 256. -/
def toyCipher : BlockCipher where
  enc := fun k b => b.map (fun x => (x + k.headD 0) % 256)
  dec := fun k b => b.map (fun x => (x + (256 - k.headD 0 % 256)) % 256)
  enc_length := fun _ b h => by simpa using h
  enc_valid := fun _ b hv => by
    intro x hx
    rcases List.mem_map.mp hx with ⟨y, _, rfl⟩
    exact Nat.mod_lt _ (by omega)
  dec_enc := fun k b hlen => by
    clear hlen
    induction b with
    | nil => intro _; rfl
    | cons x xs ih =>
      intro hv
      have hx : x < 256 := hv x (by simp)
      simp only [List.map_cons, List.cons.injEq]
      refine ⟨by omega, ?_⟩
      exact ih (fun u hu => hv u (by simp [hu]))

/-- A concrete KDF instance: a constant key built from the first
password byte. -/
def toyKdf : Bytes → Bytes → Nat → Nat → Bytes :=
  fun pw _ _ len => List.replicate len (pw.headD 0)

/-- A concrete entropy stream: all zeros. -/
def toyEntropy : Nat → Nat → Nat := fun _ _ => 0

/-- A concrete mapping serializer. -/
def toySerialize : List (List String × List String) → Bytes := fun _ => [0]

/-- A concrete mapping parser that always fails. -/
def toyParseNone : Bytes → Option (List (List String × List String)) :=
  fun _ => none

/-! ## The claims -/

/-! ## Properties and claims -/

theorem xorBytes_length (a b : Bytes) :
    (xorBytes a b).length = min a.length b.length := by
  simp [xorBytes]

theorem xorBytes_valid {a b : Bytes} (ha : ValidBytes a) (hb : ValidBytes b) :
    ValidBytes (xorBytes a b) := by
  induction a generalizing b with
  | nil => intro x hx; simp [xorBytes] at hx
  | cons x xs ih =>
    cases b with
    | nil => intro y hy; simp [xorBytes] at hy
    | cons y ys =>
      intro z hz
      simp only [xorBytes, List.zipWith_cons_cons, List.mem_cons] at hz
      rcases hz with rfl | hz
      · have hx : x < 2 ^ 8 := ha x (by simp)
        have hy : y < 2 ^ 8 := hb y (by simp)
        exact Nat.xor_lt_two_pow hx hy
      · exact ih (fun u hu => ha u (by simp [hu]))
          (fun u hu => hb u (by simp [hu])) z hz

theorem xorBytes_xorBytes_cancel {a b : Bytes} (h : a.length = b.length) :
    xorBytes (xorBytes a b) b = a := by
  induction a generalizing b with
  | nil => cases b <;> simp [xorBytes] at h ⊢
  | cons x xs ih =>
    cases b with
    | nil => simp at h
    | cons y ys =>
      simp only [xorBytes, List.zipWith_cons_cons]
      congr 1
      · rw [Nat.xor_assoc, Nat.xor_self, Nat.xor_zero]
      · exact ih (by simpa using h)

theorem chunks16Go_congr : ∀ (fuel fuel' : Nat) (l : Bytes),
    l.length ≤ fuel → l.length ≤ fuel' →
    chunks16Go fuel l = chunks16Go fuel' l := by
  intro fuel
  induction fuel with
  | zero =>
    intro fuel' l h _
    cases l with
    | nil => cases fuel' <;> rfl
    | cons x xs => simp at h
  | succ f ih =>
    intro fuel' l h h'
    cases l with
    | nil => cases fuel' <;> rfl
    | cons x xs =>
      cases fuel' with
      | zero => simp at h'
      | succ f' =>
        simp only [chunks16Go]
        congr 1
        refine ih f' _ ?_ ?_ <;>
          simp only [List.length_drop, List.length_cons] at * <;> omega

theorem chunks16_nil : chunks16 [] = [] := rfl

theorem chunks16_cons (x : Nat) (xs : Bytes) :
    chunks16 (x :: xs) = ((x :: xs).take 16) :: chunks16 ((x :: xs).drop 16) := by
  rw [chunks16, chunks16]
  simp only [List.length_cons, chunks16Go]
  congr 1
  refine chunks16Go_congr _ _ _ ?_ ?_ <;>
    simp only [List.length_drop, List.length_cons] <;> omega

theorem chunks16_flatten (l : Bytes) : (chunks16 l).flatten = l := by
  have hgo : ∀ (fuel : Nat) (l : Bytes), l.length ≤ fuel →
      (chunks16Go fuel l).flatten = l := by
    intro fuel
    induction fuel with
    | zero =>
      intro l h
      cases l with
      | nil => rfl
      | cons x xs => simp at h
    | succ f ih =>
      intro l h
      cases l with
      | nil => rfl
      | cons x xs =>
        simp only [chunks16Go, List.flatten_cons]
        rw [ih ((x :: xs).drop 16) (by
          simp only [List.length_drop, List.length_cons] at h ⊢
          omega)]
        exact List.take_append_drop 16 (x :: xs)
  exact hgo l.length l (Nat.le_refl _)

theorem chunks16_length_mem {l : Bytes} (hdvd : 16 ∣ l.length) :
    ∀ b ∈ chunks16 l, b.length = 16 := by
  have hgo : ∀ (fuel : Nat) (l : Bytes), l.length ≤ fuel → 16 ∣ l.length →
      ∀ b ∈ chunks16Go fuel l, b.length = 16 := by
    intro fuel
    induction fuel with
    | zero =>
      intro l h _ b hb
      cases l with
      | nil => simp [chunks16Go] at hb
      | cons x xs => simp at h
    | succ f ih =>
      intro l h hdvd b hb
      cases l with
      | nil => simp [chunks16Go] at hb
      | cons x xs =>
        simp only [chunks16Go, List.mem_cons] at hb
        rcases hdvd with ⟨c, hc⟩
        simp only [List.length_cons] at hc
        have h16 : 16 ≤ xs.length + 1 := by omega
        rcases hb with rfl | hb
        · rw [List.length_take]
          simp only [List.length_cons]
          omega
        · refine ih _ ?_ ⟨c - 1, ?_⟩ b hb <;>
            simp only [List.length_drop, List.length_cons] at * <;> omega
  exact hgo l.length l (Nat.le_refl _) hdvd

theorem chunks16_valid_mem {l : Bytes} (hv : ValidBytes l) :
    ∀ b ∈ chunks16 l, ValidBytes b := by
  have hgo : ∀ (fuel : Nat) (l : Bytes), ValidBytes l →
      ∀ b ∈ chunks16Go fuel l, ValidBytes b := by
    intro fuel
    induction fuel with
    | zero =>
      intro l hv b hb
      cases l with
      | nil => simp [chunks16Go] at hb
      | cons x xs =>
        simp only [chunks16Go, List.mem_cons, List.not_mem_nil,
          or_false] at hb
        rcases hb with rfl
        exact hv
    | succ f ih =>
      intro l hv b hb
      cases l with
      | nil => simp [chunks16Go] at hb
      | cons x xs =>
        simp only [chunks16Go, List.mem_cons] at hb
        rcases hb with rfl | hb
        · exact fun u hu => hv u (List.mem_of_mem_take hu)
        · exact ih _ (fun u hu => hv u (List.mem_of_mem_drop hu)) b hb
  exact hgo l.length l hv

theorem chunks16_of_block_flatten {L : List Bytes} (h : ∀ b ∈ L, b.length = 16) :
    chunks16 L.flatten = L := by
  induction L with
  | nil => simp [chunks16_nil]
  | cons b bs ih =>
    have hb : b.length = 16 := h b (by simp)
    rw [List.flatten_cons]
    cases b with
    | nil => simp at hb
    | cons y ys =>
      rw [List.cons_append, chunks16_cons, ← List.cons_append]
      have htake : ((y :: ys) ++ bs.flatten).take 16 = y :: ys := by
        rw [← hb]; exact List.take_left (y :: ys) bs.flatten
      have hdrop : ((y :: ys) ++ bs.flatten).drop 16 = bs.flatten := by
        rw [← hb]; exact List.drop_left (y :: ys) bs.flatten
      rw [htake, hdrop, ih (fun c hc => h c (by simp [hc]))]

theorem flatten_length_of_blocks {L : List Bytes} (h : ∀ b ∈ L, b.length = 16) :
    L.flatten.length = 16 * L.length := by
  induction L with
  | nil => simp
  | cons b bs ih =>
    simp only [List.flatten_cons, List.length_append, List.length_cons]
    rw [h b (by simp), ih (fun c hc => h c (by simp [hc]))]
    ring

/-! ## PKCS#7 padding (`cryptography.hazmat.primitives.padding.PKCS7(128)`) -/

theorem pkcs7Pad_length (data : Bytes) :
    (pkcs7Pad data).length = data.length + (16 - data.length % 16) := by
  simp [pkcs7Pad]

theorem pkcs7Pad_length_dvd (data : Bytes) : 16 ∣ (pkcs7Pad data).length := by
  rw [pkcs7Pad_length]
  have := Nat.mod_lt data.length (y := 16) (by omega)
  refine ⟨data.length / 16 + 1, ?_⟩
  have := Nat.div_add_mod data.length 16
  omega

theorem pkcs7Pad_valid {data : Bytes} (h : ValidBytes data) :
    ValidBytes (pkcs7Pad data) := by
  intro x hx
  rcases List.mem_append.mp hx with hx | hx
  · exact h x hx
  · have := List.eq_of_mem_replicate hx
    omega

theorem pkcs7Unpad_pkcs7Pad (data : Bytes) :
    pkcs7Unpad (pkcs7Pad data) = some data := by
  set p := 16 - data.length % 16 with hp
  have hp1 : 1 ≤ p := by
    have := Nat.mod_lt data.length (y := 16) (by omega)
    omega
  have hp16 : p ≤ 16 := by omega
  have hrep : (List.replicate p p : Bytes) ≠ [] := by
    simp [List.replicate, hp]
    omega
  have hlast : (pkcs7Pad data).getLast? = some p := by
    rw [pkcs7Pad, List.getLast?_append_of_ne_nil _ hrep]
    rw [List.getLast?_replicate]
    simp
    omega
  have hlen : (pkcs7Pad data).length = data.length + p := by
    simp [pkcs7Pad]
  have hsub : (pkcs7Pad data).length - p = data.length := by omega
  rw [pkcs7Unpad, hlast]
  simp only
  rw [if_pos]
  · rw [hsub, pkcs7Pad, List.take_left]
  · refine ⟨hp1, hp16, by omega, ?_⟩
    intro x hx
    rw [hsub, pkcs7Pad, List.drop_left] at hx
    exact List.eq_of_mem_replicate hx

/-! ## CBC mode chaining (`modes.CBC(iv)`) -/

theorem cbcEncBlocks_length_mem (C : BlockCipher) (key : Bytes) :
    ∀ (prev : Bytes) (bs : List Bytes), prev.length = 16 →
      (∀ b ∈ bs, b.length = 16) →
      ∀ c ∈ cbcEncBlocks C key prev bs, c.length = 16 := by
  intro prev bs
  induction bs generalizing prev with
  | nil => intro _ _ c hc; simp [cbcEncBlocks] at hc
  | cons b bs ih =>
    intro hprev hbs c hc
    have hxlen : (xorBytes b prev).length = 16 := by
      rw [xorBytes_length, hprev, hbs b (by simp)]
      simp
    have henc : (C.enc key (xorBytes b prev)).length = 16 :=
      C.enc_length key _ hxlen
    simp only [cbcEncBlocks, List.mem_cons] at hc
    rcases hc with rfl | hc
    · exact henc
    · exact ih _ henc (fun u hu => hbs u (by simp [hu])) c hc

theorem cbcEncBlocks_valid_mem (C : BlockCipher) (key : Bytes) :
    ∀ (prev : Bytes) (bs : List Bytes), ValidBytes prev →
      (∀ b ∈ bs, ValidBytes b) →
      ∀ c ∈ cbcEncBlocks C key prev bs, ValidBytes c := by
  intro prev bs
  induction bs generalizing prev with
  | nil => intro _ _ c hc; simp [cbcEncBlocks] at hc
  | cons b bs ih =>
    intro hprev hbs c hc
    have hxv : ValidBytes (xorBytes b prev) :=
      xorBytes_valid (hbs b (by simp)) hprev
    have hev : ValidBytes (C.enc key (xorBytes b prev)) :=
      C.enc_valid key _ hxv
    simp only [cbcEncBlocks, List.mem_cons] at hc
    rcases hc with rfl | hc
    · exact hev
    · exact ih _ hev (fun u hu => hbs u (by simp [hu])) c hc

theorem cbcEncBlocks_length (C : BlockCipher) (key : Bytes) :
    ∀ (prev : Bytes) (bs : List Bytes),
      (cbcEncBlocks C key prev bs).length = bs.length := by
  intro prev bs
  induction bs generalizing prev with
  | nil => simp [cbcEncBlocks]
  | cons b bs ih => simp [cbcEncBlocks, ih]

theorem cbcDecBlocks_cbcEncBlocks (C : BlockCipher) (key : Bytes) :
    ∀ (prev : Bytes) (bs : List Bytes),
      prev.length = 16 → ValidBytes prev →
      (∀ b ∈ bs, b.length = 16) → (∀ b ∈ bs, ValidBytes b) →
      cbcDecBlocks C key prev (cbcEncBlocks C key prev bs) = bs := by
  intro prev bs
  induction bs generalizing prev with
  | nil => intro _ _ _ _; simp [cbcEncBlocks, cbcDecBlocks]
  | cons b bs ih =>
    intro hprev hprevv hlen hval
    have hblen : b.length = 16 := hlen b (by simp)
    have hbval : ValidBytes b := hval b (by simp)
    have hxlen : (xorBytes b prev).length = 16 := by
      rw [xorBytes_length, hprev, hblen]; simp
    have hxval : ValidBytes (xorBytes b prev) := xorBytes_valid hbval hprevv
    have henclen : (C.enc key (xorBytes b prev)).length = 16 :=
      C.enc_length key _ hxlen
    have hencval : ValidBytes (C.enc key (xorBytes b prev)) :=
      C.enc_valid key _ hxval
    simp only [cbcEncBlocks, cbcDecBlocks]
    congr 1
    · rw [C.dec_enc key _ hxlen hxval]
      exact xorBytes_xorBytes_cancel (by rw [hblen, hprev])
    · exact ih _ henclen hencval
        (fun u hu => hlen u (by simp [hu]))
        (fun u hu => hval u (by simp [hu]))

/-! ## `encrypt_data` / `decrypt_data` (AES-256-CBC with IV prefix) -/

theorem encrypt_data_length (C : BlockCipher) (key iv data : Bytes)
    (hiv : iv.length = 16) :
    (encrypt_data C key iv data).length =
      16 + (data.length + (16 - data.length % 16)) := by
  have hblocks : ∀ b ∈ chunks16 (pkcs7Pad data), b.length = 16 :=
    chunks16_length_mem (pkcs7Pad_length_dvd data)
  have henc : ∀ c ∈ cbcEncBlocks C key iv (chunks16 (pkcs7Pad data)),
      c.length = 16 :=
    cbcEncBlocks_length_mem C key iv _ hiv hblocks
  rw [encrypt_data, List.length_append, hiv,
    flatten_length_of_blocks henc, cbcEncBlocks_length]
  have h1 : (chunks16 (pkcs7Pad data)).flatten.length =
      16 * (chunks16 (pkcs7Pad data)).length :=
    flatten_length_of_blocks hblocks
  rw [chunks16_flatten] at h1
  rw [← h1, pkcs7Pad_length]

theorem encrypt_data_take_iv (C : BlockCipher) (key iv data : Bytes)
    (hiv : iv.length = 16) :
    (encrypt_data C key iv data).take 16 = iv := by
  rw [encrypt_data, ← hiv, List.take_left]

theorem encrypt_data_drop_iv (C : BlockCipher) (key iv data : Bytes)
    (hiv : iv.length = 16) :
    (encrypt_data C key iv data).drop 16 =
      (cbcEncBlocks C key iv (chunks16 (pkcs7Pad data))).flatten := by
  rw [encrypt_data, ← hiv, List.drop_left]

theorem encrypt_data_valid (C : BlockCipher) (key iv data : Bytes)
    (hivv : ValidBytes iv) (hdata : ValidBytes data) :
    ValidBytes (encrypt_data C key iv data) := by
  intro x hx
  rw [encrypt_data] at hx
  rcases List.mem_append.mp hx with hx | hx
  · exact hivv x hx
  · rcases List.mem_flatten.mp hx with ⟨c, hc, hxc⟩
    exact cbcEncBlocks_valid_mem C key iv _ hivv
      (chunks16_valid_mem (pkcs7Pad_valid hdata)) c hc x hxc

/-- Core round-trip at the blob level: decrypting an `encrypt_data`
output under the same key recovers the plaintext. -/
theorem decrypt_data_encrypt_data (C : BlockCipher) (key iv data : Bytes)
    (hiv : iv.length = 16) (hivv : ValidBytes iv) (hdata : ValidBytes data) :
    decrypt_data C key (encrypt_data C key iv data) = .ok data := by
  have hblocks : ∀ b ∈ chunks16 (pkcs7Pad data), b.length = 16 :=
    chunks16_length_mem (pkcs7Pad_length_dvd data)
  have hbval : ∀ b ∈ chunks16 (pkcs7Pad data), ValidBytes b :=
    chunks16_valid_mem (pkcs7Pad_valid hdata)
  have henc : ∀ c ∈ cbcEncBlocks C key iv (chunks16 (pkcs7Pad data)),
      c.length = 16 :=
    cbcEncBlocks_length_mem C key iv _ hiv hblocks
  have hctlen : (cbcEncBlocks C key iv (chunks16 (pkcs7Pad data))).flatten.length
      = 16 * (chunks16 (pkcs7Pad data)).length := by
    rw [flatten_length_of_blocks henc, cbcEncBlocks_length]
  have hlen : ¬ (encrypt_data C key iv data).length < 16 := by
    rw [encrypt_data, List.length_append, hiv]; omega
  rw [decrypt_data, if_neg hlen]
  simp only [encrypt_data_take_iv C key iv data hiv,
    encrypt_data_drop_iv C key iv data hiv]
  rw [if_neg (by rw [hctlen]; omega)]
  rw [chunks16_of_block_flatten henc,
    cbcDecBlocks_cbcEncBlocks C key iv _ hiv hivv hblocks hbval,
    chunks16_flatten, pkcs7Unpad_pkcs7Pad]

/-! ## UTF-8 (`str.encode('utf-8')` / `bytes.decode('utf-8')`) -/

theorem utf8DecodeGo_congr : ∀ (fuel fuel' : Nat) (l : Bytes),
    l.length ≤ fuel → l.length ≤ fuel' →
    utf8DecodeGo fuel l = utf8DecodeGo fuel' l := by
  intro fuel
  induction fuel with
  | zero =>
    intro fuel' l h _
    cases l with
    | nil => cases fuel' <;> rfl
    | cons b rest => simp at h
  | succ f ih =>
    intro fuel' l h h'
    cases l with
    | nil => cases fuel' <;> rfl
    | cons b rest =>
      cases fuel' with
      | zero => simp at h'
      | succ f' =>
        simp only [List.length_cons] at h h'
        have h1 : utf8DecodeGo f rest = utf8DecodeGo f' rest :=
          ih f' _ (by omega) (by omega)
        have h2 : utf8DecodeGo f (rest.drop 1) =
            utf8DecodeGo f' (rest.drop 1) :=
          ih f' _ (by simp only [List.length_drop]; omega)
            (by simp only [List.length_drop]; omega)
        have h3 : utf8DecodeGo f (rest.drop 2) =
            utf8DecodeGo f' (rest.drop 2) :=
          ih f' _ (by simp only [List.length_drop]; omega)
            (by simp only [List.length_drop]; omega)
        have h4 : utf8DecodeGo f (rest.drop 3) =
            utf8DecodeGo f' (rest.drop 3) :=
          ih f' _ (by simp only [List.length_drop]; omega)
            (by simp only [List.length_drop]; omega)
        simp only [utf8DecodeGo]
        rw [h1, h2, h3, h4]

theorem utf8Decode_cons (b : Nat) (rest : Bytes) :
    utf8Decode (b :: rest) =
      (if b < 0x80 then (utf8Decode rest).map (fun t => b :: t)
      else if b < 0xE0 then
        if 0xC2 ≤ b ∧ 1 ≤ rest.length ∧ 0x80 ≤ rest.getD 0 0 ∧
            rest.getD 0 0 < 0xC0 then
          (utf8Decode (rest.drop 1)).map
            (fun t => ((b - 0xC0) * 64 + (rest.getD 0 0 - 0x80)) :: t)
        else none
      else if b < 0xF0 then
        if 2 ≤ rest.length ∧ 0x80 ≤ rest.getD 0 0 ∧ rest.getD 0 0 < 0xC0 ∧
            0x80 ≤ rest.getD 1 0 ∧ rest.getD 1 0 < 0xC0 ∧
            0x800 ≤ (b - 0xE0) * 4096 + (rest.getD 0 0 - 0x80) * 64 +
              (rest.getD 1 0 - 0x80) ∧
            ((b - 0xE0) * 4096 + (rest.getD 0 0 - 0x80) * 64 +
                (rest.getD 1 0 - 0x80) < 0xD800 ∨
              0xDFFF < (b - 0xE0) * 4096 + (rest.getD 0 0 - 0x80) * 64 +
                (rest.getD 1 0 - 0x80)) then
          (utf8Decode (rest.drop 2)).map
            (fun t => ((b - 0xE0) * 4096 + (rest.getD 0 0 - 0x80) * 64 +
              (rest.getD 1 0 - 0x80)) :: t)
        else none
      else if b < 0xF5 then
        if 3 ≤ rest.length ∧ 0x80 ≤ rest.getD 0 0 ∧ rest.getD 0 0 < 0xC0 ∧
            0x80 ≤ rest.getD 1 0 ∧ rest.getD 1 0 < 0xC0 ∧
            0x80 ≤ rest.getD 2 0 ∧ rest.getD 2 0 < 0xC0 ∧
            0x10000 ≤ (b - 0xF0) * 262144 + (rest.getD 0 0 - 0x80) * 4096 +
              (rest.getD 1 0 - 0x80) * 64 + (rest.getD 2 0 - 0x80) ∧
            (b - 0xF0) * 262144 + (rest.getD 0 0 - 0x80) * 4096 +
              (rest.getD 1 0 - 0x80) * 64 + (rest.getD 2 0 - 0x80) <
              0x110000 then
          (utf8Decode (rest.drop 3)).map
            (fun t => ((b - 0xF0) * 262144 + (rest.getD 0 0 - 0x80) * 4096 +
              (rest.getD 1 0 - 0x80) * 64 + (rest.getD 2 0 - 0x80)) :: t)
        else none
      else none) := by
  rw [show utf8Decode (b :: rest) =
    utf8DecodeGo (rest.length + 1) (b :: rest) from rfl]
  simp only [utf8DecodeGo]
  have h1 : utf8DecodeGo rest.length rest = utf8Decode rest := rfl
  have h2 : utf8DecodeGo rest.length (rest.drop 1) =
      utf8Decode (rest.drop 1) :=
    utf8DecodeGo_congr _ _ _ (by simp only [List.length_drop]; omega)
      (Nat.le_refl _)
  have h3 : utf8DecodeGo rest.length (rest.drop 2) =
      utf8Decode (rest.drop 2) :=
    utf8DecodeGo_congr _ _ _ (by simp only [List.length_drop]; omega)
      (Nat.le_refl _)
  have h4 : utf8DecodeGo rest.length (rest.drop 3) =
      utf8Decode (rest.drop 3) :=
    utf8DecodeGo_congr _ _ _ (by simp only [List.length_drop]; omega)
      (Nat.le_refl _)
  rw [h1, h2, h3, h4]

theorem utf8EncodeChar_valid {c : Nat} (hc : c < 0x110000) :
    ValidBytes (utf8EncodeChar c) := by
  intro x hx
  rw [utf8EncodeChar] at hx
  have hm := c.mod_lt (y := 64) (by omega)
  split at hx
  · rcases List.mem_singleton.mp hx with rfl; omega
  · split at hx
    · have h64 : c / 64 < 32 := by omega
      simp only [List.mem_cons, List.not_mem_nil, or_false] at hx
      rcases hx with rfl | rfl <;> omega
    · split at hx
      · have h4096 : c / 4096 < 16 := by omega
        have hm2 : c / 64 % 64 < 64 := Nat.mod_lt _ (by omega)
        simp only [List.mem_cons, List.not_mem_nil, or_false] at hx
        rcases hx with rfl | rfl | rfl <;> omega
      · have h262144 : c / 262144 < 5 := by omega
        have h1 : c / 4096 % 64 < 64 := Nat.mod_lt _ (by omega)
        have h2 : c / 64 % 64 < 64 := Nat.mod_lt _ (by omega)
        simp only [List.mem_cons, List.not_mem_nil, or_false] at hx
        rcases hx with rfl | rfl | rfl | rfl <;> omega

/-- A valid scalar value followed by arbitrary bytes decodes to the
scalar value followed by the decoding of the rest. -/
theorem utf8Decode_encodeChar_append {c : Nat} (hc : Nat.isValidChar c)
    (rest : Bytes) :
    utf8Decode (utf8EncodeChar c ++ rest) =
      (utf8Decode rest).map (fun l => c :: l) := by
  have hc' : c < 0x110000 := by rcases hc with h | ⟨_, h⟩ <;> omega
  rw [utf8EncodeChar]
  by_cases h1 : c < 0x80
  · rw [if_pos h1]
    simp only [List.cons_append, List.nil_append]
    rw [utf8Decode_cons, if_pos h1]
  · rw [if_neg h1]
    by_cases h2 : c < 0x800
    · rw [if_pos h2]
      have hd : 2 ≤ c / 64 := by omega
      have hd' : c / 64 < 32 := by omega
      have hm := c.mod_lt (y := 64) (by omega)
      simp only [List.cons_append, List.nil_append]
      rw [utf8Decode_cons]
      simp only [List.getD_cons_zero, List.length_cons, List.drop_succ_cons,
        List.drop_zero]
      rw [if_neg (by omega), if_pos (by omega),
        if_pos ⟨by omega, by omega, by omega, by omega⟩]
      have hval : (0xC0 + c / 64 - 0xC0) * 64 + (0x80 + c % 64 - 0x80) = c := by
        have := Nat.div_add_mod c 64
        omega
      rw [hval]
    · rw [if_neg h2]
      by_cases h3 : c < 0x10000
      · rw [if_pos h3]
        have hd : c / 4096 < 16 := by omega
        have hd2 : 0x800 ≤ c := by omega
        have hm1 : c / 64 % 64 < 64 := Nat.mod_lt _ (by omega)
        have hm2 := c.mod_lt (y := 64) (by omega)
        have hval : (0xE0 + c / 4096 - 0xE0) * 4096 +
            (0x80 + c / 64 % 64 - 0x80) * 64 + (0x80 + c % 64 - 0x80) = c := by
          have e1 := Nat.div_add_mod c 64
          have e2 := Nat.div_add_mod (c / 64) 64
          have e3 : c / 64 / 64 = c / 4096 := by
            rw [Nat.div_div_eq_div_mul]
          omega
        have hsur : (0xE0 + c / 4096 - 0xE0) * 4096 +
            (0x80 + c / 64 % 64 - 0x80) * 64 + (0x80 + c % 64 - 0x80) < 0xD800 ∨
            0xDFFF < (0xE0 + c / 4096 - 0xE0) * 4096 +
            (0x80 + c / 64 % 64 - 0x80) * 64 + (0x80 + c % 64 - 0x80) := by
          rw [hval]
          rcases hc with h | ⟨hs, _⟩
          · exact Or.inl (by omega)
          · exact Or.inr (by omega)
        simp only [List.cons_append, List.nil_append]
        rw [utf8Decode_cons]
        simp only [List.getD_cons_zero, List.getD_cons_succ, List.length_cons,
          List.drop_succ_cons, List.drop_zero]
        rw [if_neg (by omega), if_neg (by omega), if_pos (by omega),
          if_pos ⟨by omega, by omega, by omega, by omega, by omega,
            by rw [hval]; omega, hsur⟩]
        rw [hval]
      · rw [if_neg h3]
        have hd : c / 262144 < 5 := by omega
        have hd2 : 0x10000 ≤ c := by omega
        have hm1 : c / 4096 % 64 < 64 := Nat.mod_lt _ (by omega)
        have hm2 : c / 64 % 64 < 64 := Nat.mod_lt _ (by omega)
        have hm3 := c.mod_lt (y := 64) (by omega)
        have hval : (0xF0 + c / 262144 - 0xF0) * 262144 +
            (0x80 + c / 4096 % 64 - 0x80) * 4096 +
            (0x80 + c / 64 % 64 - 0x80) * 64 + (0x80 + c % 64 - 0x80) = c := by
          have e1 := Nat.div_add_mod c 64
          have e2 := Nat.div_add_mod (c / 64) 64
          have e3 := Nat.div_add_mod (c / 4096) 64
          have e4 : c / 64 / 64 = c / 4096 := by rw [Nat.div_div_eq_div_mul]
          have e5 : c / 4096 / 64 = c / 262144 := by
            rw [Nat.div_div_eq_div_mul]
          omega
        simp only [List.cons_append, List.nil_append]
        rw [utf8Decode_cons]
        simp only [List.getD_cons_zero, List.getD_cons_succ, List.length_cons,
          List.drop_succ_cons, List.drop_zero]
        rw [if_neg (by omega), if_neg (by omega), if_neg (by omega),
          if_pos (by omega),
          if_pos ⟨by omega, by omega, by omega, by omega, by omega, by omega,
            by omega, by rw [hval]; omega, by rw [hval]; omega⟩]
        rw [hval]

theorem char_toNat_isValidChar (c : Char) : Nat.isValidChar c.toNat := by
  rcases c.valid with h | ⟨h1, h2⟩
  · exact Or.inl (UInt32.toNat_lt_of_lt (by decide) h)
  · exact Or.inr ⟨UInt32.lt_toNat_of_lt (by decide) h1,
      UInt32.toNat_lt_of_lt (by decide) h2⟩

theorem char_toNat_lt (c : Char) : c.toNat < 0x110000 := by
  rcases char_toNat_isValidChar c with h | ⟨_, h⟩ <;> omega

theorem utf8Decode_utf8EncodeChars (cs : List Char) :
    utf8Decode (utf8EncodeChars cs) = some (cs.map Char.toNat) := by
  induction cs with
  | nil => rfl
  | cons c cs ih =>
    rw [utf8EncodeChars, List.map_cons, List.flatten_cons]
    rw [utf8Decode_encodeChar_append (char_toNat_isValidChar c)]
    rw [show (cs.map (fun ch => utf8EncodeChar ch.toNat)).flatten =
      utf8EncodeChars cs from rfl, ih]
    simp

theorem utf8Decode_utf8Encode (s : String) :
    utf8Decode (utf8Encode s) = some (s.data.map Char.toNat) :=
  utf8Decode_utf8EncodeChars s.data

theorem utf8Encode_valid (s : String) : ValidBytes (utf8Encode s) := by
  intro x hx
  rw [utf8Encode, utf8EncodeChars] at hx
  rcases List.mem_flatten.mp hx with ⟨l, hl, hxl⟩
  rcases List.mem_map.mp hl with ⟨c, _, rfl⟩
  exact utf8EncodeChar_valid (char_toNat_lt c) x hxl

/-! ## Key derivation (`PBKDF2HMAC` in `BackupEncryptor.__init__` /
`BackupDecryptor.__init__`) -/

theorem char_toNat_ofNat {n : Nat} (h : n < 0xd800) :
    (Char.ofNat n).toNat = n := by
  rw [Char.ofNat, dif_pos (Or.inl h)]
  simp [Char.ofNatAux, Char.toNat, UInt32.toNat]

theorem charSixBit_sixBitChar {n : Nat} (h : n < 64) :
    charSixBit (sixBitChar n) = some n := by
  rw [sixBitChar]
  split
  · rw [charSixBit, char_toNat_ofNat (by omega), if_pos (by omega)]
    congr 1; omega
  · split
    · rw [charSixBit, char_toNat_ofNat (by omega), if_neg (by omega),
        if_pos (by omega)]
      congr 1; omega
    · split
      · rw [charSixBit, char_toNat_ofNat (by omega), if_neg (by omega),
          if_neg (by omega), if_pos (by omega)]
        congr 1; omega
      · split
        · rw [charSixBit, char_toNat_ofNat (by omega), if_neg (by omega),
            if_neg (by omega), if_neg (by omega), if_pos (by omega)]
          congr 1; omega
        · rw [charSixBit, char_toNat_ofNat (by omega), if_neg (by omega),
            if_neg (by omega), if_neg (by omega), if_neg (by omega),
            if_pos (by omega)]
          congr 1; omega

theorem charSixBit_isSome_sixBitChar (n : Nat) :
    (charSixBit (sixBitChar n)).isSome = true := by
  rw [sixBitChar]
  split
  · rw [charSixBit, char_toNat_ofNat (by omega), if_pos (by omega)]; rfl
  · split
    · rw [charSixBit, char_toNat_ofNat (by omega), if_neg (by omega),
        if_pos (by omega)]
      rfl
    · split
      · rw [charSixBit, char_toNat_ofNat (by omega), if_neg (by omega),
          if_neg (by omega), if_pos (by omega)]
        rfl
      · split
        · rw [charSixBit, char_toNat_ofNat (by omega), if_neg (by omega),
            if_neg (by omega), if_neg (by omega), if_pos (by omega)]
          rfl
        · rw [charSixBit, char_toNat_ofNat (by omega), if_neg (by omega),
            if_neg (by omega), if_neg (by omega), if_neg (by omega),
            if_pos (by omega)]
          rfl

theorem sixBitChar_ne_of_none {ch : Char} (hch : charSixBit ch = none)
    (n : Nat) : sixBitChar n ≠ ch := by
  intro hc
  have := charSixBit_isSome_sixBitChar n
  rw [hc, hch] at this
  simp at this

theorem charSixBit_eq_none : charSixBit '=' = none := by decide

theorem sixBitChar_ne_eq (n : Nat) : sixBitChar n ≠ '=' :=
  sixBitChar_ne_of_none charSixBit_eq_none n

/-- Every character emitted by the base64 encoder is either an alphabet
character or the padding character. -/
theorem mem_b64EncodeBytes {l : Bytes} {ch : Char}
    (h : ch ∈ b64EncodeBytes l) :
    ch = '=' ∨ (charSixBit ch).isSome = true := by
  induction l using b64EncodeBytes.induct with
  | case1 => simp [b64EncodeBytes] at h
  | case2 a =>
    simp only [b64EncodeBytes, List.mem_cons, List.not_mem_nil, or_false] at h
    rcases h with rfl | rfl | rfl | rfl
    · exact Or.inr (charSixBit_isSome_sixBitChar _)
    · exact Or.inr (charSixBit_isSome_sixBitChar _)
    · exact Or.inl rfl
    · exact Or.inl rfl
  | case3 a b =>
    simp only [b64EncodeBytes, List.mem_cons, List.not_mem_nil, or_false] at h
    rcases h with rfl | rfl | rfl | rfl
    · exact Or.inr (charSixBit_isSome_sixBitChar _)
    · exact Or.inr (charSixBit_isSome_sixBitChar _)
    · exact Or.inr (charSixBit_isSome_sixBitChar _)
    · exact Or.inl rfl
  | case4 a b c rest ih =>
    simp only [b64EncodeBytes, List.mem_cons] at h
    rcases h with rfl | rfl | rfl | rfl | h
    · exact Or.inr (charSixBit_isSome_sixBitChar _)
    · exact Or.inr (charSixBit_isSome_sixBitChar _)
    · exact Or.inr (charSixBit_isSome_sixBitChar _)
    · exact Or.inr (charSixBit_isSome_sixBitChar _)
    · exact ih h

/-- Structure of the encoder's output: a core of non-padding characters
followed by at most two `=`, with total length a multiple of four. -/
theorem b64EncodeBytes_structure (l : Bytes) :
    ∃ core k, b64EncodeBytes l = core ++ List.replicate k '=' ∧ k ≤ 2 ∧
      (core.length + k) % 4 = 0 ∧ ∀ ch ∈ core, ch ≠ '=' := by
  induction l using b64EncodeBytes.induct with
  | case1 => exact ⟨[], 0, by simp [b64EncodeBytes]⟩
  | case2 a =>
    refine ⟨[sixBitChar (a / 4), sixBitChar (a % 4 * 16)], 2, by
      simp [b64EncodeBytes, List.replicate], by omega, by simp, ?_⟩
    intro ch hch
    simp only [List.mem_cons, List.not_mem_nil, or_false] at hch
    rcases hch with rfl | rfl <;> exact sixBitChar_ne_eq _
  | case3 a b =>
    refine ⟨[sixBitChar (a / 4), sixBitChar (a % 4 * 16 + b / 16),
      sixBitChar (b % 16 * 4)], 1, by
      simp [b64EncodeBytes, List.replicate], by omega, by simp, ?_⟩
    intro ch hch
    simp only [List.mem_cons, List.not_mem_nil, or_false] at hch
    rcases hch with rfl | rfl | rfl <;> exact sixBitChar_ne_eq _
  | case4 a b c rest ih =>
    rcases ih with ⟨core, k, henc, hk, hmod, hcore⟩
    refine ⟨sixBitChar (a / 4) :: sixBitChar (a % 4 * 16 + b / 16) ::
      sixBitChar (b % 16 * 4 + c / 64) :: sixBitChar (c % 64) :: core, k, ?_,
      hk, by simp only [List.length_cons]; omega, ?_⟩
    · rw [b64EncodeBytes, henc]
      simp
    · intro ch hch
      simp only [List.mem_cons] at hch
      rcases hch with rfl | rfl | rfl | rfl | hch
      · exact sixBitChar_ne_eq _
      · exact sixBitChar_ne_eq _
      · exact sixBitChar_ne_eq _
      · exact sixBitChar_ne_eq _
      · exact hcore ch hch

theorem stripEq_core_append {core : List Char} {k : Nat}
    (hcore : ∀ ch ∈ core, ch ≠ '=') :
    stripEq (core ++ List.replicate k '=') = core := by
  rw [stripEq, List.reverse_append, List.reverse_replicate]
  have hdrop : ∀ m : Nat, List.dropWhile (fun c => c == '=')
      (List.replicate m '=' ++ core.reverse) = core.reverse := by
    intro m
    induction m with
    | zero =>
      simp only [List.replicate, List.nil_append]
      cases hrev : core.reverse with
      | nil => simp
      | cons x xs =>
        have hx : x ∈ core := by
          rw [← List.mem_reverse, hrev]; simp
        rw [List.dropWhile_cons]
        simp [hcore x hx]
    | succ m ihm =>
      simp only [List.replicate, List.cons_append, List.dropWhile_cons]
      simpa using ihm
  rw [hdrop, List.reverse_reverse]

theorem repadEq_of_mod {core : List Char} {k : Nat} (hk : k ≤ 2)
    (hmod : (core.length + k) % 4 = 0) :
    repadEq core = core ++ List.replicate k '=' := by
  rw [repadEq]
  congr 2
  omega

/-- Stripping the encoder's `=` padding and re-padding from the string
length restores the encoder's exact output. -/
theorem repadEq_stripEq_b64EncodeBytes (l : Bytes) :
    repadEq (stripEq (b64EncodeBytes l)) = b64EncodeBytes l := by
  rcases b64EncodeBytes_structure l with ⟨core, k, henc, hk, hmod, hcore⟩
  rw [henc, stripEq_core_append hcore, repadEq_of_mod hk hmod]

/-- The base64 decoder inverts the encoder on genuine byte strings. -/
theorem b64DecodeBytes_b64EncodeBytes {l : Bytes} (hv : ValidBytes l) :
    b64DecodeBytes (b64EncodeBytes l) = some l := by
  induction l using b64EncodeBytes.induct with
  | case1 => simp [b64EncodeBytes, b64DecodeBytes]
  | case2 a =>
    have ha : a < 256 := hv a (by simp)
    rw [b64EncodeBytes, b64DecodeBytes]
    rw [charSixBit_sixBitChar (by omega), charSixBit_sixBitChar (by omega)]
    simp
    omega
  | case3 a b =>
    have ha : a < 256 := hv a (by simp)
    have hb : b < 256 := hv b (by simp)
    rw [b64EncodeBytes, b64DecodeBytes]
    rw [charSixBit_sixBitChar (by omega), charSixBit_sixBitChar (by omega)]
    simp only [if_neg (sixBitChar_ne_eq (b % 16 * 4))]
    rw [charSixBit_sixBitChar (by omega)]
    simp
    constructor <;> omega
  | case4 a b c rest ih =>
    have ha : a < 256 := hv a (by simp)
    have hb : b < 256 := hv b (by simp)
    have hc : c < 256 := hv c (by simp)
    have hrest : ValidBytes rest := fun u hu => hv u (by simp [hu])
    rw [b64EncodeBytes, b64DecodeBytes]
    rw [charSixBit_sixBitChar (by omega), charSixBit_sixBitChar (by omega)]
    simp only [if_neg (sixBitChar_ne_eq (b % 16 * 4 + c / 64))]
    rw [charSixBit_sixBitChar (by omega)]
    simp only [if_neg (sixBitChar_ne_eq (c % 64))]
    rw [charSixBit_sixBitChar (by omega), ih hrest]
    have e1 : a / 4 * 4 + (a % 4 * 16 + b / 16) / 16 = a := by omega
    have e2 : (a % 4 * 16 + b / 16) % 16 * 16 + (b % 16 * 4 + c / 64) / 4 = b := by
      omega
    have e3 : (b % 16 * 4 + c / 64) % 4 * 64 + c % 64 = c := by omega
    simp [e1, e2, e3]

/-! ## `encrypt_filename` / `decrypt_filename` -/

theorem decrypt_filename_encrypt_filename (C : BlockCipher)
    (key iv : Bytes) (filename : String) (hiv : iv.length = 16)
    (hivv : ValidBytes iv) :
    decrypt_filename C key (encrypt_filename C key iv filename) =
      some filename := by
  rw [decrypt_filename, encrypt_filename]
  rw [show (String.mk (stripEq (b64EncodeBytes
    (encrypt_data C key iv (utf8Encode filename))))).data =
    stripEq (b64EncodeBytes (encrypt_data C key iv (utf8Encode filename)))
    from rfl]
  rw [repadEq_stripEq_b64EncodeBytes]
  rw [b64DecodeBytes_b64EncodeBytes
    (encrypt_data_valid C key iv _ hivv (utf8Encode_valid filename))]
  simp only
  rw [decrypt_data_encrypt_data C key iv _ hiv hivv (utf8Encode_valid filename)]
  simp only
  rw [utf8Decode_utf8Encode]
  simp only [Option.some.injEq]
  rw [List.map_map]
  have hmap : filename.data.map (Char.ofNat ∘ Char.toNat) = filename.data := by
    induction filename.data with
    | nil => rfl
    | cons c cs ih => simp only [List.map_cons, Function.comp_apply,
        Char.ofNat_toNat, ih]
  rw [hmap]

/-! ## Filesystem model

The mirror (backup) directory is modelled as a list of files, each a
relative path (list of components, as in `pathlib.Path.parts`) paired
with its byte content.  Directories are implicit in the path
components; the `.git` directory appears as files whose first component
is `".git"`. -/

theorem encryptParts_counter (C : BlockCipher) (key : Bytes)
    (entropy : Nat → Nat → Nat) :
    ∀ (n : Nat) (ps : List String),
      (encryptParts C key entropy n ps).2 = n + ps.length := by
  intro n ps
  induction ps generalizing n with
  | nil => simp [encryptParts]
  | cons p ps ih => simp [encryptParts, ih]; omega

theorem encryptParts_length (C : BlockCipher) (key : Bytes)
    (entropy : Nat → Nat → Nat) :
    ∀ (n : Nat) (ps : List String),
      (encryptParts C key entropy n ps).1.length = ps.length := by
  intro n ps
  induction ps generalizing n with
  | nil => simp [encryptParts]
  | cons p ps ih => simp [encryptParts, ih]

theorem encryptParts_mem (C : BlockCipher) (key : Bytes)
    (entropy : Nat → Nat → Nat) :
    ∀ (n : Nat) (ps : List String) (q : String),
      q ∈ (encryptParts C key entropy n ps).1 →
      ∃ iv p, q = encrypt_filename C key iv p := by
  intro n ps
  induction ps generalizing n with
  | nil => intro q hq; simp [encryptParts] at hq
  | cons p ps ih =>
    intro q hq
    simp only [encryptParts, List.mem_cons] at hq
    rcases hq with rfl | hq
    · exact ⟨ivOf entropy n, p, rfl⟩
    · exact ih (n + 1) q hq

theorem ivOf_length (entropy : Nat → Nat → Nat) (n : Nat) :
    (ivOf entropy n).length = 16 := by
  simp [ivOf]

theorem ivOf_valid (entropy : Nat → Nat → Nat) (n : Nat) :
    ValidBytes (ivOf entropy n) := by
  intro x hx
  rcases List.mem_map.mp hx with ⟨i, _, rfl⟩
  exact Nat.mod_lt _ (by omega)

theorem encRels_length (C : BlockCipher) (key : Bytes)
    (entropy : Nat → Nat → Nat) :
    ∀ (n : Nat) (fs : List (List String × Bytes)),
      (encRels C key entropy n fs).length = fs.length := by
  intro n fs
  induction fs generalizing n with
  | nil => simp [encRels]
  | cons f fs ih =>
    rcases f with ⟨rel, content⟩
    simp [encRels, ih]

theorem mirrorWrites_paths (C : BlockCipher) (key : Bytes)
    (entropy : Nat → Nat → Nat) :
    ∀ (n : Nat) (fs : List (List String × Bytes)),
      (mirrorWrites C key entropy n fs).map Prod.fst =
        encRels C key entropy n fs := by
  intro n fs
  induction fs generalizing n with
  | nil => simp [mirrorWrites, encRels]
  | cons f fs ih =>
    rcases f with ⟨rel, content⟩
    simp [mirrorWrites, encRels, ih]

/-! ## Mirror read/write lemmas -/

theorem setFile_eq_append {m : Mirror} {p : List String} (b : Bytes)
    (h : ∀ e ∈ m, e.1 ≠ p) : setFile m p b = m ++ [(p, b)] := by
  rw [setFile]
  congr 1
  rw [List.filter_eq_self]
  intro e he
  simpa using h e he

theorem lookupFile_setFile_self (m : Mirror) (p : List String) (b : Bytes) :
    lookupFile (setFile m p b) p = some b := by
  rw [setFile, lookupFile]
  induction m with
  | nil => simp
  | cons e m ih =>
    by_cases hep : e.1 = p
    · rw [List.filter_cons_of_neg (by simpa using hep)]
      exact ih
    · rw [List.filter_cons_of_pos (by simpa using hep)]
      rw [List.cons_append, List.find?_cons_of_neg _ (by simpa using hep)]
      exact ih

theorem lookupFile_setFile_ne (m : Mirror) (p q : List String) (b : Bytes)
    (h : q ≠ p) : lookupFile (setFile m p b) q = lookupFile m q := by
  rw [setFile, lookupFile, lookupFile]
  induction m with
  | nil => simp [Ne.symm h]
  | cons e m ih =>
    by_cases hep : e.1 = p
    · rw [List.filter_cons_of_neg (by simpa using hep)]
      rw [List.find?_cons_of_neg _ (by simp [hep, Ne.symm h])]
      exact ih
    · rw [List.filter_cons_of_pos (by simpa using hep)]
      by_cases heq : e.1 = q
      · rw [List.cons_append, List.find?_cons_of_pos _ (by simpa using heq),
          List.find?_cons_of_pos _ (by simpa using heq)]
      · rw [List.cons_append, List.find?_cons_of_neg _ (by simpa using heq),
          List.find?_cons_of_neg _ (by simpa using heq)]
        exact ih

theorem lookupFile_isSome_of_mem {m : Mirror} {p : List String}
    (h : p ∈ m.map Prod.fst) : (lookupFile m p).isSome = true := by
  rw [lookupFile]
  induction m with
  | nil => simp at h
  | cons e m ih =>
    by_cases hep : e.1 = p
    · rw [List.find?_cons_of_pos _ (by simpa using hep)]
      rfl
    · rw [List.find?_cons_of_neg _ (by simpa using hep)]
      refine ih ?_
      rcases List.mem_map.mp h with ⟨x, hx, rfl⟩
      rcases List.mem_cons.mp hx with rfl | hx
      · exact absurd rfl hep
      · exact List.mem_map.mpr ⟨x, hx, rfl⟩

theorem lookupFile_append_left {m m' : Mirror} {p : List String}
    (h : ∀ e ∈ m', e.1 ≠ p) :
    lookupFile (m ++ m') p = lookupFile m p := by
  rw [lookupFile, lookupFile]
  induction m with
  | nil =>
    simp only [List.nil_append]
    rw [List.find?_eq_none.mpr (fun e he => by simpa using h e he)]
    simp [List.find?_nil]
  | cons e m ih =>
    by_cases hep : e.1 = p
    · rw [List.cons_append, List.find?_cons_of_pos _ (by simpa using hep),
        List.find?_cons_of_pos _ (by simpa using hep)]
    · rw [List.cons_append, List.find?_cons_of_neg _ (by simpa using hep),
        List.find?_cons_of_neg _ (by simpa using hep)]
      exact ih

/-! ## The backup loop specification -/

/-- Behaviour of the file loop: with no path collisions, it appends
exactly the `mirrorWrites` files to the mirror, produces the mapping
pairing each encrypted relative path with its original relative path,
and advances the IV counter by the run's weight. -/
theorem backupFiles_spec (C : BlockCipher) (key : Bytes)
    (entropy : Nat → Nat → Nat) :
    ∀ (fs : List (List String × Bytes)) (n : Nat) (m : Mirror),
      (encRels C key entropy n fs).Nodup →
      (∀ p ∈ encRels C key entropy n fs, ∀ e ∈ m, e.1 ≠ p) →
      backupFiles C key entropy n fs m =
        (m ++ mirrorWrites C key entropy n fs,
          (encRels C key entropy n fs).zip (fs.map Prod.fst),
          n + backupWeight fs) := by
  intro fs
  induction fs with
  | nil => intro n m _ _; simp [backupFiles, mirrorWrites, encRels, backupWeight]
  | cons f fs ih =>
    rcases f with ⟨rel, content⟩
    intro n m hnd hdisj
    have hcounter := encryptParts_counter C key entropy n rel
    have hhead : (encryptParts C key entropy n rel).1 ∈
        encRels C key entropy n ((rel, content) :: fs) := by
      rw [encRels]; simp
    have hset : setFile m (encryptParts C key entropy n rel).1
        (encrypt_data C key (ivOf entropy (encryptParts C key entropy n rel).2)
          content) =
        m ++ [((encryptParts C key entropy n rel).1,
          encrypt_data C key
            (ivOf entropy (encryptParts C key entropy n rel).2) content)] :=
      setFile_eq_append _ (fun e he => hdisj _ hhead e he)
    rw [encRels] at hnd
    have hnotin : (encryptParts C key entropy n rel).1 ∉
        encRels C key entropy (n + rel.length + 1) fs :=
      (List.nodup_cons.mp hnd).1
    have hndtail : (encRels C key entropy (n + rel.length + 1) fs).Nodup :=
      (List.nodup_cons.mp hnd).2
    have hdisj' : ∀ p ∈ encRels C key entropy (n + rel.length + 1) fs,
        ∀ e ∈ m ++ [((encryptParts C key entropy n rel).1,
          encrypt_data C key
            (ivOf entropy (encryptParts C key entropy n rel).2) content)],
        e.1 ≠ p := by
      intro p hp e he
      rcases List.mem_append.mp he with he | he
      · exact hdisj p (by rw [encRels]; simp [hp]) e he
      · rcases List.mem_singleton.mp he with rfl
        intro hc
        rw [hc] at hnotin
        exact hnotin hp
    show (let er := encryptParts C key entropy n rel
      let blob := encrypt_data C key (ivOf entropy er.2) content
      let r := backupFiles C key entropy (er.2 + 1) fs (setFile m er.1 blob)
      (r.1, (er.1, rel) :: r.2.1, r.2.2)) = _
    simp only
    rw [hcounter] at hset hdisj'
    rw [hcounter, hset, ih (n + rel.length + 1) _ hndtail hdisj']
    rw [encRels, mirrorWrites, backupWeight]
    simp only [List.map_cons, List.zip_cons_cons, hcounter, Prod.mk.injEq]
    refine ⟨?_, trivial, by omega⟩
    rw [List.append_assoc]
    rfl

/-! ## Encrypted names avoid reserved names -/

theorem mem_of_mem_dropWhile {p : Char → Bool} {x : Char} :
    ∀ {l : List Char}, x ∈ l.dropWhile p → x ∈ l := by
  intro l
  induction l with
  | nil => intro h; simpa using h
  | cons a l ih =>
    intro h
    rw [List.dropWhile_cons] at h
    split at h
    · exact List.mem_cons_of_mem a (ih h)
    · exact h

theorem mem_of_mem_stripEq {s : List Char} {ch : Char}
    (h : ch ∈ stripEq s) : ch ∈ s := by
  rw [stripEq, List.mem_reverse] at h
  have := mem_of_mem_dropWhile h
  rwa [List.mem_reverse] at this

theorem mem_stripEq_b64 {l : Bytes} {ch : Char}
    (h : ch ∈ stripEq (b64EncodeBytes l)) :
    (charSixBit ch).isSome = true ∧ ch ≠ '=' := by
  rcases b64EncodeBytes_structure l with ⟨core, k, henc, _, _, hcore⟩
  rw [henc, stripEq_core_append hcore] at h
  have hne : ch ≠ '=' := hcore ch h
  have hmem : ch ∈ b64EncodeBytes l := by
    rw [henc]; exact List.mem_append_left _ h
  rcases mem_b64EncodeBytes hmem with rfl | hsome
  · exact absurd rfl hne
  · exact ⟨hsome, hne⟩

/-- An encrypted filename never collides with a name containing a
character outside the base64url alphabet. -/
theorem encrypt_filename_ne_of_bad_char (C : BlockCipher) (key iv : Bytes)
    (name : String) (target : String) (bad : Char)
    (hb : bad ∈ target.data) (hbne : bad ≠ '=')
    (hbnone : charSixBit bad = none) :
    encrypt_filename C key iv name ≠ target := by
  intro hc
  have hdata : (encrypt_filename C key iv name).data = target.data :=
    congrArg String.data hc
  rw [encrypt_filename] at hdata
  have hbad : bad ∈ stripEq (b64EncodeBytes
      (encrypt_data C key iv (utf8Encode name))) := by
    rw [show (String.mk (stripEq (b64EncodeBytes
      (encrypt_data C key iv (utf8Encode name))))).data =
      stripEq (b64EncodeBytes (encrypt_data C key iv (utf8Encode name)))
      from rfl] at hdata
    rw [hdata]
    exact hb
  rcases mem_stripEq_b64 hbad with ⟨hsome, _⟩
  rw [hbnone] at hsome
  simp at hsome

theorem encrypt_filename_ne_gitDirName (C : BlockCipher) (key iv : Bytes)
    (name : String) : encrypt_filename C key iv name ≠ gitDirName :=
  encrypt_filename_ne_of_bad_char C key iv name gitDirName
    '.' (by decide) (by decide) (by decide)

theorem encrypt_filename_ne_mappingName (C : BlockCipher) (key iv : Bytes)
    (name : String) : encrypt_filename C key iv name ≠ "mapping.enc" :=
  encrypt_filename_ne_of_bad_char C key iv name "mapping.enc"
    '.' (by decide) (by decide) (by decide)

/-- Every path the backup loop writes begins with an encrypted name,
provided every selected file has a nonempty relative path. -/
theorem encRels_head (C : BlockCipher) (key : Bytes)
    (entropy : Nat → Nat → Nat) :
    ∀ (n : Nat) (fs : List (List String × Bytes)),
      (∀ f ∈ fs, f.1 ≠ []) →
      ∀ p ∈ encRels C key entropy n fs,
        ∃ iv name, p.head? = some (encrypt_filename C key iv name) := by
  intro n fs
  induction fs generalizing n with
  | nil => intro _ p hp; simp [encRels] at hp
  | cons f fs ih =>
    rcases f with ⟨rel, content⟩
    intro hne p hp
    simp only [encRels, List.mem_cons] at hp
    rcases hp with rfl | hp
    · have hrel : rel ≠ [] := hne (rel, content) (by simp)
      cases rel with
      | nil => exact absurd rfl hrel
      | cons r rs =>
        refine ⟨ivOf entropy n, r, ?_⟩
        rw [encryptParts]
        rfl
    · exact ih (n + 1 + rel.length)
        (fun g hg => hne g (by simp [hg])) p
        (by rw [show n + 1 + rel.length = n + rel.length + 1 by omega]; exact hp)

theorem encRels_head_ne_git (C : BlockCipher) (key : Bytes)
    (entropy : Nat → Nat → Nat) {n : Nat} {fs : List (List String × Bytes)}
    (hne : ∀ f ∈ fs, f.1 ≠ []) :
    ∀ p ∈ encRels C key entropy n fs, p.head? ≠ some gitDirName := by
  intro p hp hc
  rcases encRels_head C key entropy n fs hne p hp with ⟨iv, name, hh⟩
  rw [hc] at hh
  have : gitDirName = encrypt_filename C key iv name := by
    simpa using hh
  exact encrypt_filename_ne_gitDirName C key iv name this.symm

theorem encRels_ne_mappingPath (C : BlockCipher) (key : Bytes)
    (entropy : Nat → Nat → Nat) {n : Nat} {fs : List (List String × Bytes)}
    (hne : ∀ f ∈ fs, f.1 ≠ []) :
    ∀ p ∈ encRels C key entropy n fs, p ≠ mappingPath := by
  intro p hp hc
  rcases encRels_head C key entropy n fs hne p hp with ⟨iv, name, hh⟩
  rw [hc] at hh
  have : ("mapping.enc" : String) = encrypt_filename C key iv name := by
    simpa [mappingPath] using hh
  exact encrypt_filename_ne_mappingName C key iv name this.symm

theorem mirrorWrites_length (C : BlockCipher) (key : Bytes)
    (entropy : Nat → Nat → Nat) :
    ∀ (n : Nat) (fs : List (List String × Bytes)),
      (mirrorWrites C key entropy n fs).length = fs.length := by
  intro n fs
  induction fs generalizing n with
  | nil => simp [mirrorWrites]
  | cons f fs ih =>
    rcases f with ⟨rel, content⟩
    simp [mirrorWrites, ih]

theorem encRels_zip_length (C : BlockCipher) (key : Bytes)
    (entropy : Nat → Nat → Nat) :
    ∀ (n : Nat) (fs : List (List String × Bytes)),
      ∀ pr ∈ (encRels C key entropy n fs).zip (fs.map Prod.fst),
        pr.1.length = pr.2.length := by
  intro n fs
  induction fs generalizing n with
  | nil => intro pr hpr; simp [encRels] at hpr
  | cons f fs ih =>
    rcases f with ⟨rel, content⟩
    intro pr hpr
    simp only [encRels, List.map_cons, List.zip_cons_cons,
      List.mem_cons] at hpr
    rcases hpr with rfl | hpr
    · exact encryptParts_length C key entropy n rel
    · exact ih (n + rel.length + 1) pr hpr

/-! ## Frame lemmas for the backup run -/

theorem mem_setFile_of_ne {m : Mirror} {p : List String} {b : Bytes}
    {e : List String × Bytes} (he : e ∈ m) (hne : e.1 ≠ p) :
    e ∈ setFile m p b := by
  rw [setFile]
  exact List.mem_append_left _ (List.mem_filter.mpr ⟨he, by simpa using hne⟩)

theorem clearBackupDir_mem {m : Mirror} {e : List String × Bytes} :
    e ∈ clearBackupDir m ↔ (e ∈ m ∧ e.1.head? = some gitDirName) := by
  rw [clearBackupDir, List.mem_filter]
  simp

theorem clearBackupDir_idem (m : Mirror) :
    clearBackupDir (clearBackupDir m) = clearBackupDir m := by
  rw [clearBackupDir, List.filter_eq_self]
  intro e he
  rw [clearBackupDir, List.mem_filter] at he
  exact he.2

/-- An entry whose path the file loop never writes survives the file
loop untouched. -/
theorem backupFiles_mem_preserved (C : BlockCipher) (key : Bytes)
    (entropy : Nat → Nat → Nat) :
    ∀ (fs : List (List String × Bytes)) (n : Nat) (m : Mirror)
      (e : List String × Bytes), e ∈ m →
      (∀ p ∈ encRels C key entropy n fs, e.1 ≠ p) →
      e ∈ (backupFiles C key entropy n fs m).1 := by
  intro fs
  induction fs with
  | nil => intro n m e he _; simpa [backupFiles] using he
  | cons f fs ih =>
    rcases f with ⟨rel, content⟩
    intro n m e he hdisj
    show e ∈ (let er := encryptParts C key entropy n rel
      let blob := encrypt_data C key (ivOf entropy er.2) content
      let r := backupFiles C key entropy (er.2 + 1) fs (setFile m er.1 blob)
      (r.1, (er.1, rel) :: r.2.1, r.2.2)).1
    simp only
    rw [encryptParts_counter C key entropy n rel]
    refine ih (n + rel.length + 1) _ e ?_ ?_
    · exact mem_setFile_of_ne he
        (hdisj _ (by rw [encRels]; simp))
    · intro p hp
      exact hdisj p (by rw [encRels]; simp [hp])

/-! ## The restore loop specification -/

theorem restoreLoop_all_ok (C : BlockCipher) (key : Bytes) (mirror : Mirror) :
    ∀ (entries : List (List String × List String)),
      (∀ ent ∈ entries, Option.all
        (fun blob => (decrypt_data C key blob).isOk)
        (lookupFile mirror ent.1) = true) →
      (restoreLoop C key mirror entries).2.2 = none ∧
      (restoreLoop C key mirror entries).2.1 =
        (entries.filter
          (fun ent => (lookupFile mirror ent.1).isSome)).length ∧
      (restoreLoop C key mirror entries).1.length =
        (entries.filter
          (fun ent => (lookupFile mirror ent.1).isSome)).length := by
  intro entries
  induction entries with
  | nil => intro _; simp [restoreLoop]
  | cons ent rest ih =>
    rcases ent with ⟨encP, origP⟩
    intro hall
    have hent := hall (encP, origP) (by simp)
    have hrest : ∀ ent ∈ rest, Option.all
        (fun blob => (decrypt_data C key blob).isOk)
        (lookupFile mirror ent.1) = true :=
      fun ent h => hall ent (List.mem_cons_of_mem _ h)
    rcases ih hrest with ⟨h1, h2, h3⟩
    cases hl : lookupFile mirror encP with
    | none =>
      rw [restoreLoop, hl]
      rw [List.filter_cons_of_neg (by simp [hl])]
      exact ⟨h1, h2, h3⟩
    | some blob =>
      rw [hl] at hent
      simp only [Option.all_some] at hent
      cases hd : decrypt_data C key blob with
      | error e => rw [hd] at hent; simp [Except.isOk, Except.toBool] at hent
      | ok d =>
        simp only [restoreLoop, hl, hd]
        rw [List.filter_cons_of_pos (by simp [hl])]
        simp only [List.length_cons]
        exact ⟨h1, by omega, by omega⟩

theorem filter_length_lt_of_exists_not {α : Type} (p : α → Bool)
    (l : List α) (h : ∃ x ∈ l, p x = false) :
    (l.filter p).length < l.length := by
  induction l with
  | nil => simp at h
  | cons a l ih =>
    rcases h with ⟨x, hx, hpx⟩
    rcases List.mem_cons.mp hx with rfl | hx
    · rw [List.filter_cons_of_neg (by simp [hpx])]
      have := List.length_filter_le p l
      simp only [List.length_cons]
      omega
    · by_cases hpa : p a
      · rw [List.filter_cons_of_pos hpa]
        have := ih ⟨x, hx, hpx⟩
        simp only [List.length_cons]
        omega
      · rw [List.filter_cons_of_neg hpa]
        have := List.length_filter_le p l
        simp only [List.length_cons]
        omega

theorem lookup_backup_mappingPath (C : BlockCipher)
    (pbkdf2 : Bytes → Bytes → Nat → Nat → Bytes)
    (entropy : Nat → Nat → Nat)
    (serialize : List (List String × List String) → Bytes)
    (password : String) (files : List (List String × Bytes))
    (mirror : Mirror) (hfiles : files ≠ []) :
    lookupFile (backup C pbkdf2 entropy serialize password files mirror).1
      mappingPath =
      some (backupMappingBlob C pbkdf2 entropy serialize password files
        mirror) := by
  rw [backupMappingBlob, backup, if_neg hfiles]
  simp only
  rw [lookupFile_setFile_self]

/-! ## Concrete instances (used to exhibit the theorems at concrete
inputs) -/

/-- C1: for every passphrase `P` and every byte string `data`
(including the empty string), decrypting the result of
`encrypt_data data` under the key `BackupDecryptor(P)` derives, where
the blob was produced under the key `BackupEncryptor(P)` derives,
returns exactly `data`. -/
theorem c1_decrypt_encrypt_data_roundtrip (C : BlockCipher)
    (pbkdf2 : Bytes → Bytes → Nat → Nat → Bytes) (P : String)
    (iv data : Bytes) (hiv : iv.length = 16) (hivv : ValidBytes iv)
    (hdata : ValidBytes data) :
    decrypt_data C (backupDecryptorKey pbkdf2 P)
      (encrypt_data C (backupEncryptorKey pbkdf2 P) iv data) = .ok data :=
  decrypt_data_encrypt_data C (backupEncryptorKey pbkdf2 P) iv data
    hiv hivv hdata

theorem c1_witness :
    decrypt_data toyCipher (backupDecryptorKey toyKdf "pw")
      (encrypt_data toyCipher (backupEncryptorKey toyKdf "pw")
        (ivOf toyEntropy 0) []) = .ok [] :=
  c1_decrypt_encrypt_data_roundtrip toyCipher toyKdf "pw"
    (ivOf toyEntropy 0) [] (by decide) (by decide) (by decide)

/-- C3: key derivation is a deterministic pure function of the
passphrase alone: `BackupEncryptor.__init__` and
`BackupDecryptor.__init__` compute the identical key, of length 32
bytes, from the PBKDF2 primitive applied to the fixed salt and a fixed
iteration count of at least 100000. -/
theorem c3_key_derivation_deterministic
    (pbkdf2 : Bytes → Bytes → Nat → Nat → Bytes)
    (hlen : ∀ pw salt it len, (pbkdf2 pw salt it len).length = len)
    (P : String) :
    backupEncryptorKey pbkdf2 P = backupDecryptorKey pbkdf2 P ∧
    (backupEncryptorKey pbkdf2 P).length = 32 ∧
    backupEncryptorKey pbkdf2 P =
      pbkdf2 (utf8Encode P) kdfSalt kdfIterations kdfKeyLength ∧
    kdfIterations = 100000 ∧ 100000 ≤ kdfIterations ∧ kdfKeyLength = 32 :=
  ⟨rfl, hlen (utf8Encode P) kdfSalt kdfIterations kdfKeyLength, rfl, rfl,
    Nat.le_refl _, rfl⟩

theorem c3_witness :
    backupEncryptorKey toyKdf "pw" = backupDecryptorKey toyKdf "pw" ∧
    (backupEncryptorKey toyKdf "pw").length = 32 ∧
    backupEncryptorKey toyKdf "pw" =
      toyKdf (utf8Encode "pw") kdfSalt kdfIterations kdfKeyLength ∧
    kdfIterations = 100000 ∧ 100000 ≤ kdfIterations ∧ kdfKeyLength = 32 :=
  c3_key_derivation_deterministic toyKdf
    (fun pw salt it len => by simp [toyKdf]) "pw"

/-- C4: `decrypt_data` fails with the malformed-blob error whenever its
input is shorter than 16 bytes or the remainder after the 16-byte IV is
not a multiple of the block size, and that error is distinguishable
from the invalid-padding error. -/
theorem c4_decrypt_data_malformed (C : BlockCipher) (key blob : Bytes)
    (h : blob.length < 16 ∨ (blob.length - 16) % 16 ≠ 0) :
    decrypt_data C key blob = .error .malformedBlob ∧
    DecryptError.malformedBlob ≠ DecryptError.paddingError := by
  refine ⟨?_, by decide⟩
  by_cases h1 : blob.length < 16
  · rw [decrypt_data, if_pos h1]
  · rw [decrypt_data, if_neg h1]
    simp only
    rw [if_pos (by rw [List.length_drop]; rcases h with h | h; omega; exact h)]

theorem c4_witness :
    decrypt_data toyCipher [] [0, 1, 2] = .error .malformedBlob ∧
    DecryptError.malformedBlob ≠ DecryptError.paddingError :=
  c4_decrypt_data_malformed toyCipher [] [0, 1, 2] (by decide)

/-- C5: for every Unicode string (including the empty string, strings
containing a slash, non-ASCII strings, and strings spanning several
cipher blocks), decrypting the encrypted filename under the key derived
from the same passphrase returns the original string; the encrypted
filename consists only of URL-safe base64 alphabet characters with no
`=` padding left, and `decrypt_filename` recomputes that padding from
the string length before decoding. -/
theorem c5_decrypt_encrypt_filename_roundtrip (C : BlockCipher)
    (pbkdf2 : Bytes → Bytes → Nat → Nat → Bytes) (P : String)
    (iv : Bytes) (name : String) (hiv : iv.length = 16)
    (hivv : ValidBytes iv) :
    decrypt_filename C (backupDecryptorKey pbkdf2 P)
      (encrypt_filename C (backupEncryptorKey pbkdf2 P) iv name) =
      some name ∧
    ∀ ch ∈ (encrypt_filename C (backupEncryptorKey pbkdf2 P) iv name).data,
      (charSixBit ch).isSome = true ∧ ch ≠ '=' := by
  refine ⟨decrypt_filename_encrypt_filename C
    (backupEncryptorKey pbkdf2 P) iv name hiv hivv, ?_⟩
  intro ch hch
  exact mem_stripEq_b64 hch

theorem c5_witness :
    decrypt_filename toyCipher (backupDecryptorKey toyKdf "pw")
      (encrypt_filename toyCipher (backupEncryptorKey toyKdf "pw")
        (ivOf toyEntropy 1) "a/é") = some "a/é" :=
  (c5_decrypt_encrypt_filename_roundtrip toyCipher toyKdf "pw"
    (ivOf toyEntropy 1) "a/é" (by decide) (by decide)).1

/-- C7: every blob `encrypt_data` produces is a 16-byte IV followed by
ciphertext, its length is at least 16 and the remainder after the IV is
a multiple of 16; for the empty plaintext the ciphertext is exactly one
full block of padding (16 bytes of value 16). -/
theorem c7_encrypt_data_blob_layout (C : BlockCipher) (key iv data : Bytes)
    (hiv : iv.length = 16) :
    16 ≤ (encrypt_data C key iv data).length ∧
    ((encrypt_data C key iv data).length - 16) % 16 = 0 ∧
    (encrypt_data C key iv data).take 16 = iv ∧
    (data = [] → (encrypt_data C key iv data).length = 32 ∧
      pkcs7Pad [] = List.replicate 16 16) := by
  have hlen := encrypt_data_length C key iv data hiv
  have hmod := Nat.mod_lt data.length (y := 16) (by omega)
  refine ⟨by omega, ?_, encrypt_data_take_iv C key iv data hiv, ?_⟩
  · have := Nat.div_add_mod data.length 16
    omega
  · intro hd
    subst hd
    refine ⟨by simpa using hlen, ?_⟩
    rw [pkcs7Pad]
    simp

theorem c7_witness :
    16 ≤ (encrypt_data toyCipher [] (ivOf toyEntropy 3) []).length ∧
    ((encrypt_data toyCipher [] (ivOf toyEntropy 3) []).length - 16) % 16 = 0 ∧
    (encrypt_data toyCipher [] (ivOf toyEntropy 3) []).take 16 =
      ivOf toyEntropy 3 ∧
    (([] : Bytes) = [] →
      (encrypt_data toyCipher [] (ivOf toyEntropy 3) []).length = 32 ∧
      pkcs7Pad [] = List.replicate 16 16) :=
  c7_encrypt_data_blob_layout toyCipher [] (ivOf toyEntropy 3) [] (by decide)

/-- C10: if the selected file set is empty, `backup` returns before
touching the mirror: the mirror (with whatever files and mapping a
previous run left) is returned unchanged, and no mapping is built. -/
theorem c10_backup_empty_fileset_noop (C : BlockCipher)
    (pbkdf2 : Bytes → Bytes → Nat → Nat → Bytes)
    (entropy : Nat → Nat → Nat)
    (serialize : List (List String × List String) → Bytes)
    (P : String) (mirror : Mirror) :
    backup C pbkdf2 entropy serialize P [] mirror = (mirror, []) := by
  rw [backup, if_pos rfl]

/-- C9: when the selected set is nonempty, the clearing step of
`backup` keeps exactly the entries under `.git` and removes every other
entry of the mirror; the kept `.git` entries survive the whole run
untouched, and the run's result is the same as if it had started from
the cleared mirror — the mirror tree is rebuilt from scratch. -/
theorem c9_backup_clears_before_writes (C : BlockCipher)
    (pbkdf2 : Bytes → Bytes → Nat → Nat → Bytes)
    (entropy : Nat → Nat → Nat)
    (serialize : List (List String × List String) → Bytes)
    (P : String) (files : List (List String × Bytes)) (mirror : Mirror)
    (hfiles : files ≠ []) (hne : ∀ f ∈ files, f.1 ≠ []) :
    (∀ e : List String × Bytes,
      e ∈ clearBackupDir mirror ↔
        (e ∈ mirror ∧ e.1.head? = some gitDirName)) ∧
    (∀ e ∈ mirror, e.1.head? = some gitDirName →
      e ∈ (backup C pbkdf2 entropy serialize P files mirror).1) ∧
    backup C pbkdf2 entropy serialize P files mirror =
      backup C pbkdf2 entropy serialize P files (clearBackupDir mirror) := by
  refine ⟨fun e => clearBackupDir_mem, ?_, ?_⟩
  · intro e he hgit
    have hec : e ∈ clearBackupDir mirror := clearBackupDir_mem.mpr ⟨he, hgit⟩
    rw [backup, if_neg hfiles]
    simp only
    have hdisj : ∀ p ∈ encRels C (backupEncryptorKey pbkdf2 P) entropy 0 files,
        e.1 ≠ p := by
      intro p hp hc
      have := encRels_head_ne_git C (backupEncryptorKey pbkdf2 P) entropy
        hne p hp
      rw [← hc, hgit] at this
      exact this rfl
    have hmem : e ∈ (backupFiles C (backupEncryptorKey pbkdf2 P) entropy 0
        files (clearBackupDir mirror)).1 :=
      backupFiles_mem_preserved C (backupEncryptorKey pbkdf2 P) entropy
        files 0 (clearBackupDir mirror) e hec hdisj
    refine mem_setFile_of_ne hmem ?_
    intro hc
    rw [hc] at hgit
    simp [mappingPath] at hgit
    exact absurd hgit (by decide)
  · rw [backup, backup, if_neg hfiles, if_neg hfiles, clearBackupDir_idem]

theorem c9_witness :
    (∀ e : List String × Bytes,
      e ∈ clearBackupDir [([".git", "c"], [3]), (["old"], [4])] ↔
        (e ∈ [([".git", "c"], [3]), (["old"], [4])] ∧
          e.1.head? = some gitDirName)) ∧
    (∀ e ∈ [([".git", "c"], [3]), (["old"], [4])],
      e.1.head? = some gitDirName →
      e ∈ (backup toyCipher toyKdf toyEntropy toySerialize "x"
        [(["a"], [5])] [([".git", "c"], [3]), (["old"], [4])]).1) ∧
    backup toyCipher toyKdf toyEntropy toySerialize "x" [(["a"], [5])]
        [([".git", "c"], [3]), (["old"], [4])] =
      backup toyCipher toyKdf toyEntropy toySerialize "x" [(["a"], [5])]
        (clearBackupDir [([".git", "c"], [3]), (["old"], [4])]) :=
  c9_backup_clears_before_writes toyCipher toyKdf toyEntropy toySerialize
    "x" [(["a"], [5])] [([".git", "c"], [3]), (["old"], [4])]
    (by decide) (by decide)

/-- C6: after the backup transform runs over a nonempty selected set of
N files (with pairwise-distinct encrypted relative paths, the generic
situation the source relies on) into a mirror with no `.git` entries,
the mirror holds exactly N encrypted files plus the one mapping
artifact at its root; the mapping pairs each encrypted relative path
with its original relative path, each encrypted path has as many
components as its original (each component encrypted independently),
and each encrypted path is present in the mirror. -/
theorem c6_backup_tree_shape (C : BlockCipher)
    (pbkdf2 : Bytes → Bytes → Nat → Nat → Bytes)
    (entropy : Nat → Nat → Nat)
    (serialize : List (List String × List String) → Bytes)
    (P : String) (files : List (List String × Bytes)) (mirror : Mirror)
    (hfiles : files ≠ []) (hne : ∀ f ∈ files, f.1 ≠ [])
    (hnodup : (encRels C (backupEncryptorKey pbkdf2 P) entropy 0
      files).Nodup)
    (hclear : clearBackupDir mirror = []) :
    (backup C pbkdf2 entropy serialize P files mirror).1.length =
      files.length + 1 ∧
    lookupFile (backup C pbkdf2 entropy serialize P files mirror).1
      mappingPath =
      some (backupMappingBlob C pbkdf2 entropy serialize P files mirror) ∧
    (backup C pbkdf2 entropy serialize P files mirror).2 =
      (encRels C (backupEncryptorKey pbkdf2 P) entropy 0 files).zip
        (files.map Prod.fst) ∧
    (∀ pr ∈ (backup C pbkdf2 entropy serialize P files mirror).2,
      pr.1.length = pr.2.length) ∧
    (∀ p ∈ encRels C (backupEncryptorKey pbkdf2 P) entropy 0 files,
      (lookupFile (backup C pbkdf2 entropy serialize P files mirror).1
        p).isSome = true) := by
  have hdisj : ∀ p ∈ encRels C (backupEncryptorKey pbkdf2 P) entropy 0 files,
      ∀ e ∈ clearBackupDir mirror, e.1 ≠ p := by
    rw [hclear]
    intro p _ e he
    simp at he
  have hspec := backupFiles_spec C (backupEncryptorKey pbkdf2 P) entropy
    files 0 (clearBackupDir mirror) hnodup hdisj
  rw [hclear, List.nil_append] at hspec
  have hbackup : backup C pbkdf2 entropy serialize P files mirror =
      (setFile (mirrorWrites C (backupEncryptorKey pbkdf2 P) entropy 0 files)
        mappingPath
        (encrypt_data C (backupEncryptorKey pbkdf2 P)
          (ivOf entropy (0 + backupWeight files))
          (serialize ((encRels C (backupEncryptorKey pbkdf2 P) entropy 0
            files).zip (files.map Prod.fst)))),
        (encRels C (backupEncryptorKey pbkdf2 P) entropy 0 files).zip
          (files.map Prod.fst)) := by
    rw [backup, if_neg hfiles]
    simp only
    rw [hclear, hspec]
  have hnotmap : ∀ e ∈ mirrorWrites C (backupEncryptorKey pbkdf2 P) entropy
      0 files, e.1 ≠ mappingPath := by
    intro e he
    have hp : e.1 ∈ encRels C (backupEncryptorKey pbkdf2 P) entropy 0
        files := by
      rw [← mirrorWrites_paths C (backupEncryptorKey pbkdf2 P) entropy 0
        files]
      exact List.mem_map.mpr ⟨e, he, rfl⟩
    exact encRels_ne_mappingPath C (backupEncryptorKey pbkdf2 P) entropy
      hne e.1 hp
  refine ⟨?_, lookup_backup_mappingPath C pbkdf2 entropy serialize P files
    mirror hfiles, ?_, ?_, ?_⟩
  · rw [hbackup]
    simp only
    rw [setFile_eq_append _ hnotmap, List.length_append,
      mirrorWrites_length C (backupEncryptorKey pbkdf2 P) entropy 0 files]
    simp
  · rw [hbackup]
  · rw [hbackup]
    simp only
    intro pr hpr
    exact encRels_zip_length C (backupEncryptorKey pbkdf2 P) entropy 0
      files pr hpr
  · intro p hp
    rw [hbackup]
    simp only
    rw [lookupFile_setFile_ne _ _ _ _
      (encRels_ne_mappingPath C (backupEncryptorKey pbkdf2 P) entropy hne
        p hp)]
    refine lookupFile_isSome_of_mem ?_
    rw [mirrorWrites_paths C (backupEncryptorKey pbkdf2 P) entropy 0 files]
    exact hp

theorem c6_witness :
    (backup toyCipher toyKdf toyEntropy toySerialize "x"
      [(["a"], [1]), (["d", "b"], [2])] []).1.length = 2 + 1 :=
  (c6_backup_tree_shape toyCipher toyKdf toyEntropy toySerialize "x"
    [(["a"], [1]), (["d", "b"], [2])] [] (by decide) (by decide)
    (by decide) (by decide)).1

/-- C2: after a backup made with passphrase `P1`, a restore run whose
passphrase yields a key under which the mapping artifact's padding does
not verify (the generic wrong-key situation) fails before writing any
plaintext file — the write list is empty — and the failure is the
decryption error raised on the mapping artifact. -/
theorem c2_restore_wrong_key_writes_nothing (C : BlockCipher)
    (pbkdf2 : Bytes → Bytes → Nat → Nat → Bytes)
    (entropy : Nat → Nat → Nat)
    (serialize : List (List String × List String) → Bytes)
    (parse : Bytes → Option (List (List String × List String)))
    (P1 P2 : String) (files : List (List String × Bytes))
    (mirror : Mirror) (e : DecryptError)
    (hfiles : files ≠ [])
    (hfail : decrypt_data C (backupDecryptorKey pbkdf2 P2)
      (backupMappingBlob C pbkdf2 entropy serialize P1 files mirror) =
      .error e) :
    restore C pbkdf2 parse P2
      (backup C pbkdf2 entropy serialize P1 files mirror).1 =
      ([], .error (.decryptFailed e)) := by
  have hmap := lookup_backup_mappingPath C pbkdf2 entropy serialize P1
    files mirror hfiles
  simp only [restore, hmap, hfail]

theorem c2_witness :
    restore toyCipher toyKdf toyParseNone "w"
      (backup toyCipher toyKdf toyEntropy toySerialize "x"
        [(["a"], [5])] []).1 =
      ([], .error (.decryptFailed .paddingError)) :=
  c2_restore_wrong_key_writes_nothing toyCipher toyKdf toyEntropy
    toySerialize toyParseNone "x" "w" [(["a"], [5])] [] .paddingError
    (by decide) (by decide)

/-- C8: during restore, mapping entries whose encrypted file is missing
under the mirror are skipped and all remaining entries are still
processed; when at least one entry is missing and every present entry
decrypts successfully, restore completes with a restored count equal to
the number of present entries — strictly less than the mapping's entry
count — and writes exactly that many files. -/
theorem c8_restore_skips_missing (C : BlockCipher)
    (pbkdf2 : Bytes → Bytes → Nat → Nat → Bytes)
    (parse : Bytes → Option (List (List String × List String)))
    (P : String) (mirror : Mirror) (mblob mbytes : Bytes)
    (entries : List (List String × List String))
    (hmap : lookupFile mirror mappingPath = some mblob)
    (hdec : decrypt_data C (backupDecryptorKey pbkdf2 P) mblob = .ok mbytes)
    (hparse : parse mbytes = some entries)
    (hall : ∀ ent ∈ entries, Option.all
      (fun blob => (decrypt_data C (backupDecryptorKey pbkdf2 P) blob).isOk)
      (lookupFile mirror ent.1) = true)
    (hmiss : ∃ ent ∈ entries, lookupFile mirror ent.1 = none) :
    (restore C pbkdf2 parse P mirror).2 =
      .ok ((entries.filter
        (fun ent => (lookupFile mirror ent.1).isSome)).length) ∧
    (restore C pbkdf2 parse P mirror).1.length =
      (entries.filter (fun ent => (lookupFile mirror ent.1).isSome)).length ∧
    (entries.filter (fun ent => (lookupFile mirror ent.1).isSome)).length <
      entries.length := by
  rcases restoreLoop_all_ok C (backupDecryptorKey pbkdf2 P) mirror entries
    hall with ⟨h1, h2, h3⟩
  have hres : restore C pbkdf2 parse P mirror =
      ((restoreLoop C (backupDecryptorKey pbkdf2 P) mirror entries).1,
        .ok (restoreLoop C (backupDecryptorKey pbkdf2 P) mirror
          entries).2.1) := by
    simp only [restore, hmap, hdec, hparse, h1]
  refine ⟨by rw [hres]; simpa using h2, by rw [hres]; exact h3, ?_⟩
  refine filter_length_lt_of_exists_not _ _ ?_
  rcases hmiss with ⟨ent, hent, hnone⟩
  exact ⟨ent, hent, by simp [hnone]⟩

theorem c8_witness :
    (restore toyCipher toyKdf
      (fun _ => some [(["p"], ["a"]), (["q"], ["b"])]) "x"
      [(mappingPath, encrypt_data toyCipher (backupEncryptorKey toyKdf "x")
        (ivOf toyEntropy 0) [1]),
       (["p"], encrypt_data toyCipher (backupEncryptorKey toyKdf "x")
        (ivOf toyEntropy 1) [2])]).2 =
      .ok (([(["p"], ["a"]), (["q"], ["b"])].filter
        (fun ent => (lookupFile
          [(mappingPath, encrypt_data toyCipher
            (backupEncryptorKey toyKdf "x") (ivOf toyEntropy 0) [1]),
           (["p"], encrypt_data toyCipher (backupEncryptorKey toyKdf "x")
            (ivOf toyEntropy 1) [2])] ent.1).isSome)).length) :=
  (c8_restore_skips_missing toyCipher toyKdf
    (fun _ => some [(["p"], ["a"]), (["q"], ["b"])]) "x"
    [(mappingPath, encrypt_data toyCipher (backupEncryptorKey toyKdf "x")
      (ivOf toyEntropy 0) [1]),
     (["p"], encrypt_data toyCipher (backupEncryptorKey toyKdf "x")
      (ivOf toyEntropy 1) [2])]
    (encrypt_data toyCipher (backupEncryptorKey toyKdf "x")
      (ivOf toyEntropy 0) [1])
    [1] [(["p"], ["a"]), (["q"], ["b"])]
    (by decide) (by decide) (by decide) (by decide) (by decide)).1

end GitBackupEnc

